import Mathlib

/-!
Verification of cgrad, a scalar reverse-mode automatic-differentiation engine.

Shallow embedding of `src/main.cpp` (the class template `Value<T>`).

Memory model.  Every `Value` object lives at an address; the addresses are
the indices of an arena (`State.nodes`).  A `Value` that an operator returns
is bound to a variable of its own (as in `Value<float> x1w1 = x1 * w1;` of
the driver), so that, the returned local `out` being constructed in place in
that variable, the references `this`, `other` and `out` that the closure
`_backward` captures are the addresses of three arena cells.  A closure is
represented by a tag that lists what it captured (`Rule`).

The lambdas of `pow_` and `tanh` capture, with `[&]`, also the by-value
parameter `k` and the local `t`.  Both are dead when `_backward` is called, so
what the closure reads for them is not the `k` or `t` of the construction and
is not determined by the program: it is a parameter of the model (`kRead`,
`tRead`), one value for each closure.  No theorem assumes anything about the
value, and the theorem whose result depends on a second call of the same
closures (two calls of `backward`) is stated for graphs without these two
closures (`CapturesLive`).

Function-local `static` objects are cells of the arena too; whether one has
been initialised already, and where it lives, is part of the state.

Scalars: `T` and `float` are both read as an exact field `α`.  A read
through a pointer that refers to no object of the arena gives a blank object
and a write through it is dropped; the theorems that depend on it assume that
the pointers are valid (`ValidRefs`).

The overloads taking a `float` and the `friend` operators repeat the ones
taking an `int` and are left out.  `std::to_string` and `exp` of `math.h`
are parameters (`toStr`, `expf`).
-/

namespace Cgrad

/-- Address of a `Value` object: an index of the arena. -/
abbrev Addr := Nat

/-- The closures stored in `_backward`, one tag per lambda of the source,
with the captured objects. The tags `pow` and `tanh` do not hold the `k` and
the `t` of the construction: `kRead` and `tRead` are what the closure gets
when it reads, at the time it is called, the dead parameter `k` and the dead
local `t` through the references it captured. -/
inductive Rule (α : Type) where
  | nop : Rule α
  | add (this other out : Addr) : Rule α
  | mul (this other out : Addr) : Rule α
  | pow (this : Addr) (kRead : Int) (out : Addr) : Rule α
  | tanh (this : Addr) (tRead : α) (out : Addr) : Rule α
  | exp (this out : Addr) : Rule α
deriving DecidableEq, Repr

/-- The fields of `class Value`. -/
structure Value (α : Type) where
  data : α
  grad : α
  _op : String
  label : String
  _prev : List Addr
  _backward : Rule α
deriving DecidableEq, Repr

/-- The arena of objects. -/
abbrev Nodes (α : Type) := List (Value α)

/-- The program state: the arena and, for each function-local `static`
object of the source, its address once it has been initialised. -/
structure State (α : Type) where
  nodes : Nodes α
  add_int_other : Option Addr
  mul_int_other : Option Addr
  div_pow : Option Addr
  sub_neg_other : Option Addr
deriving DecidableEq, Repr

/-- The state in which no object exists and no static is initialised. -/
def State.init (α : Type) : State α := ⟨[], none, none, none, none⟩

section Access
variable {α : Type} [Field α]

/-- What a read through a pointer that refers to no object gives in the
model. -/
def Value.blank : Value α := ⟨0, 0, "_", "_", [], Rule.nop⟩

/-- Read of the object at `p`. -/
def nodeAt (n : Nodes α) (p : Addr) : Value α := n.getD p Value.blank

/-- Read of `p->data`. -/
def dataAt (n : Nodes α) (p : Addr) : α := (nodeAt n p).data

/-- Read of `p->grad`. -/
def gradAt (n : Nodes α) (p : Addr) : α := (nodeAt n p).grad

/-- Read of `p->_prev`. -/
def prevAt (n : Nodes α) (p : Addr) : List Addr := (nodeAt n p)._prev

/-- Read of `p->_backward`. -/
def ruleAt (n : Nodes α) (p : Addr) : Rule α := (nodeAt n p)._backward

/-- Read of `p->label`. -/
def labelAt (n : Nodes α) (p : Addr) : String := (nodeAt n p).label

/-- The statement `p->grad += x`. -/
def addGrad (n : Nodes α) (p : Addr) (x : α) : Nodes α :=
  n.modify (fun v => { v with grad := v.grad + x }) p

/-- The statement `p->grad = x`. -/
def setGrad (n : Nodes α) (p : Addr) (x : α) : Nodes α :=
  n.modify (fun v => { v with grad := x }) p

/-- Constructor `Value(data, label, _children, _op)`; `grad = 0` and
`_backward = []() {}` are the default member initialisers. -/
def Value.mk4 (data : α) (label : String) (children : List Addr) (op : String) : Value α :=
  ⟨data, 0, op, label, children, Rule.nop⟩

/-- A new object is placed in the next free cell. -/
def alloc (s : State α) (v : Value α) : State α × Addr :=
  ({ s with nodes := s.nodes ++ [v] }, s.nodes.length)

/-- Declaration `Value<T> x(data, label);`. -/
def mkValue (s : State α) (data : α) (label : String) : State α × Addr :=
  alloc s (Value.mk4 data label [] "_")

/-- Method `Value operator+(Value &other)`. -/
def add (s : State α) (this other : Addr) : State α × Addr :=
  let out := s.nodes.length
  alloc s { Value.mk4 (dataAt s.nodes this + dataAt s.nodes other)
              (labelAt s.nodes this ++ "+" ++ labelAt s.nodes other) [this, other] "+" with
            _backward := Rule.add this other out }

/-- Method `Value operator*(Value &other)`. -/
def mul (s : State α) (this other : Addr) : State α × Addr :=
  let out := s.nodes.length
  alloc s { Value.mk4 (dataAt s.nodes this * dataAt s.nodes other)
              (labelAt s.nodes this ++ "*" ++ labelAt s.nodes other) [this, other] "*" with
            _backward := Rule.mul this other out }

/-- Method `Value operator+(int other_int)`: the constant operand is the
function-local `static Value other`, initialised by the first call. -/
def addInt (s : State α) (this : Addr) (other_int : Int) : State α × Addr :=
  match s.add_int_other with
  | some other => add s this other
  | none =>
    let r := alloc s (Value.mk4 (other_int : α) ("const " ++ toString other_int) [] "_")
    add { r.1 with add_int_other := some r.2 } this r.2

/-- Method `Value operator*(int other_int)`, with its own `static Value other`. -/
def mulInt (s : State α) (this : Addr) (other_int : Int) : State α × Addr :=
  match s.mul_int_other with
  | some other => mul s this other
  | none =>
    let r := alloc s (Value.mk4 (other_int : α) ("const " ++ toString other_int) [] "_")
    mul { r.1 with mul_int_other := some r.2 } this r.2

/-- Method `Value pow_(int k)`; `pow` of `math.h` is the integer power of the
field. The value and the label are computed from the parameter `k`; the
closure captures `k` by reference and will read `kRead`. -/
def pow_ (s : State α) (this : Addr) (k : Int) (kRead : Int) : State α × Addr :=
  let out := s.nodes.length
  alloc s { Value.mk4 (dataAt s.nodes this ^ k)
              ("pow(" ++ labelAt s.nodes this ++ "," ++ toString k ++ ")") [this] "pow" with
            _backward := Rule.pow this kRead out }

/-- Method `Value operator-()`: multiplies `this->data` by `-1`, prefixes
`this->label` with `"-"`, and returns a copy of `*this`. -/
def neg (s : State α) (this : Addr) : State α × Addr :=
  let n1 := s.nodes.modify (fun v => { v with data := v.data * -1 }) this
  let n2 := n1.modify (fun v => { v with label := "-" ++ v.label }) this
  alloc { s with nodes := n2 } (nodeAt n2 this)

/-- Method `Value operator-(Value &other)`: `static Value neg_other = -other;`
is initialised by the first call; the result is `*this + neg_other`. -/
def sub (s : State α) (this other : Addr) : State α × Addr :=
  match s.sub_neg_other with
  | some neg_other => add s this neg_other
  | none =>
    let r := neg s other
    add { r.1 with sub_neg_other := some r.2 } this r.2

/-- Method `Value operator/(Value &other)`: `static Value pow = other.pow_(-1);`
is initialised by the first call; the result is `*this * pow`. The closure
of the static will read `kRead` for its `k`. -/
def div (s : State α) (this other : Addr) (kRead : Int) : State α × Addr :=
  match s.div_pow with
  | some pow => mul s this pow
  | none =>
    let r := pow_ s other (-1) kRead
    mul { r.1 with div_pow := some r.2 } this r.2

/-- Method `Value tanh()`; `expf` stands for `exp` of `math.h`. The value
`t` is the expression of the source read in the exact field, not its `float`
evaluation; the closure captures the local `t` by reference and will read
`tRead`. -/
def tanh (expf : α → α) (s : State α) (this : Addr) (tRead : α) : State α × Addr :=
  let x := dataAt s.nodes this
  let t := (expf (2 * x) - 1) / (expf (2 * x) + 1)
  let out := s.nodes.length
  alloc s { Value.mk4 t ("tanh(" ++ labelAt s.nodes this ++ ")") [this] "tanh" with
            _backward := Rule.tanh this tRead out }

/-- Method `Value exp_()`; `expf` stands for `exp` of `math.h`. -/
def exp_ (expf : α → α) (s : State α) (this : Addr) : State α × Addr :=
  let out := s.nodes.length
  alloc s { Value.mk4 (expf (dataAt s.nodes this)) ("exp(" ++ labelAt s.nodes this ++ ")")
              [this] "exp" with
            _backward := Rule.exp this out }

/-- A call of the closure `_backward`. In the cases `pow` and `tanh` the
reads of `k` and `t` give `kRead` and `tRead`. -/
def runRule (n : Nodes α) : Rule α → Nodes α
  | Rule.nop => n
  | Rule.add this other out =>
    let n1 := addGrad n this (gradAt n out)
    addGrad n1 other (gradAt n1 out)
  | Rule.mul this other out =>
    let n1 := addGrad n this (dataAt n other * gradAt n out)
    addGrad n1 other (dataAt n1 this * gradAt n1 out)
  | Rule.pow this kRead out =>
    addGrad n this ((kRead : α) * dataAt n out ^ (kRead - 1) * gradAt n out)
  | Rule.tanh this tRead out =>
    addGrad n this ((1 - tRead * tRead) * gradAt n out)
  | Rule.exp this out =>
    addGrad n this (dataAt n out * gradAt n out)

/-- The locals `visited` and `topo` of `backward`. -/
structure Trav where
  visited : List Addr
  topo : List Addr
deriving DecidableEq, Repr

/-- The recursive lambda `b_topo`. The first argument bounds the depth of
the recursion; `none` means the bound was reached. -/
def b_topo (n : Nodes α) : Nat → Addr → Trav → Option Trav
  | 0, _, _ => none
  | fuel + 1, value, t =>
    if value ∈ t.visited then some t
    else
      match (prevAt n value).foldlM (fun acc child => b_topo n fuel child acc)
              { t with visited := value :: t.visited } with
      | none => none
      | some t2 => some { t2 with topo := t2.topo ++ [value] }

/-- The vector `topo` after `std::reverse`. The recursion of `b_topo` is
never deeper than the number of objects plus one. -/
def topoOrder (n : Nodes α) (root : Addr) : Option (List Addr) :=
  (b_topo n (n.length + 1) root ⟨[], []⟩).map (fun t => t.topo.reverse)

/-- The loop `for (i...) topo[i]->_backward();`. -/
def replay (n : Nodes α) (order : List Addr) : Nodes α :=
  order.foldl (fun m v => runRule m (ruleAt m v)) n

/-- Method `void backward()`, on the arena. -/
def backwardNodes (n : Nodes α) (root : Addr) : Option (Nodes α) :=
  (topoOrder n root).map (fun order => replay (setGrad n root 1) order)

/-- Method `void backward()`. -/
def backward (s : State α) (root : Addr) : Option (State α) :=
  (backwardNodes s.nodes root).map (fun m => { s with nodes := m })

end Access

section GraphNotions
variable {α : Type} [Field α]

/-- Operand relation: the object `c` is listed in `v->_prev`. -/
def Operand (n : Nodes α) (v c : Addr) : Prop := c ∈ prevAt n v

/-- The objects that can be reached from `root` along `_prev`. -/
def Reachable (n : Nodes α) (root v : Addr) : Prop := Relation.ReflTransGen (Operand n) root v

/-- No object is a transitive operand of itself. -/
def Acyclic (n : Nodes α) : Prop := ∀ v, ¬ Relation.TransGen (Operand n) v v

/-- Every pointer stored in a `_prev` refers to an object of the arena. -/
def ValidRefs (n : Nodes α) : Prop := ∀ v c, Operand n v c → c < n.length

/-- The loop `for (auto child : value._prev) b_topo(*child);`. -/
def visitAll (n : Nodes α) (fuel : Nat) (cs : List Addr) (t : Trav) : Option Trav :=
  cs.foldlM (fun acc child => b_topo n fuel child acc) t

/-- The invariant of the traversal: finished objects are marked, the
finished part is closed under operands, and no object is listed before one
of its operands. -/
structure TravInv (n : Nodes α) (t : Trav) : Prop where
  sub : ∀ u ∈ t.topo, u ∈ t.visited
  closed : ∀ u ∈ t.topo, ∀ c, Operand n u c → c ∈ t.topo
  sorted : t.topo.Pairwise (fun x y => ¬ Operand n x y)

/-- No object that is marked but not finished can be reached from `cs`. -/
def Settled (n : Nodes α) (t : Trav) (cs : List Addr) : Prop :=
  ∀ c ∈ cs, ∀ u, Reachable n c u → u ∈ t.visited → u ∈ t.topo

/-- The traversal from `cs` took `t` to `t2` and appended `new`. -/
structure Extends (n : Nodes α) (cs : List Addr) (t t2 : Trav) (new : List Addr) : Prop where
  topo_eq : t2.topo = t.topo ++ new
  visited_iff : ∀ u, u ∈ t2.visited ↔ u ∈ t.visited ∨ u ∈ new
  nodup : new.Nodup
  fresh : ∀ u ∈ new, u ∉ t.visited
  mem_iff : ∀ u, u ∈ new ↔ (∃ c ∈ cs, Reachable n c u) ∧ u ∉ t.topo

end GraphNotions

/-- The addresses below `len` that are not marked yet. -/
def unvisited (len : Nat) (visited : List Addr) : Finset Addr :=
  (Finset.range len).filter (fun a => a ∉ visited)

section GradientNotions
variable {α : Type} [Field α]

/-- An object with its `grad` left out of consideration. -/
def Value.frozen (v : Value α) : Value α := { v with grad := 0 }

/-- Two arenas that differ in `grad` fields only. -/
def SameShape (n m : Nodes α) : Prop := m.map Value.frozen = n.map Value.frozen

/-- What one call of the closure `r` adds to `x->grad` when the `grad`
the closure reads is `g`. -/
def contrib (m : Nodes α) (r : Rule α) (g : α) (x : Addr) : α :=
  match r with
  | Rule.nop => 0
  | Rule.add this other _ => (if x = this then g else 0) + (if x = other then g else 0)
  | Rule.mul this other _ =>
    (if x = this then dataAt m other * g else 0) + (if x = other then dataAt m this * g else 0)
  | Rule.pow this kRead out =>
    if x = this then (kRead : α) * dataAt m out ^ (kRead - 1) * g else 0
  | Rule.tanh this tRead _ => if x = this then (1 - tRead * tRead) * g else 0
  | Rule.exp this out => if x = this then dataAt m out * g else 0

/-- The closure of `v` is the one an operator attached when it built `v`:
it reads `v` itself as `out` and writes the operands listed in `v->_prev`;
an object without operands has the empty closure. -/
def Coherent (n : Nodes α) (v : Addr) : Prop :=
  match ruleAt n v with
  | Rule.nop => prevAt n v = []
  | Rule.add this other out => out = v ∧ prevAt n v = [this, other]
  | Rule.mul this other out => out = v ∧ prevAt n v = [this, other]
  | Rule.pow this _ out => out = v ∧ prevAt n v = [this]
  | Rule.tanh this _ out => out = v ∧ prevAt n v = [this]
  | Rule.exp this out => out = v ∧ prevAt n v = [this]

/-- The object `v` is a leaf, or was built by `operator+` or `operator*`
from two objects built before it, and holds the value its operator
computed. -/
def PolyNode (n : Nodes α) (v : Addr) : Prop :=
  match ruleAt n v with
  | Rule.nop => prevAt n v = []
  | Rule.add this other out =>
    out = v ∧ prevAt n v = [this, other] ∧ this < v ∧ other < v ∧
      dataAt n v = dataAt n this + dataAt n other
  | Rule.mul this other out =>
    out = v ∧ prevAt n v = [this, other] ∧ this < v ∧ other < v ∧
      dataAt n v = dataAt n this * dataAt n other
  | _ => False

/-- Every object of the arena is a leaf, a sum or a product. -/
def PolyGraph (n : Nodes α) : Prop := ∀ v, v < n.length → PolyNode n v

/-- The states that declarations of leaves and applications of
`operator+(Value&)` and `operator*(Value&)` to existing objects build. -/
inductive Built : State α → Prop where
  | init : Built (State.init α)
  | leaf {s : State α} (data : α) (label : String) : Built s → Built (mkValue s data label).1
  | add {s : State α} (this other : Addr) : Built s → this < s.nodes.length →
      other < s.nodes.length → Built (add s this other).1
  | mul {s : State α} (this other : Addr) : Built s → this < s.nodes.length →
      other < s.nodes.length → Built (mul s this other).1

/-- A list without repetition that holds the operands of each of its
entries, each after the entry. -/
structure TopoList (n : Nodes α) (l : List Addr) : Prop where
  nodup : l.Nodup
  sorted : l.Pairwise (fun a b => ¬ Operand n b a)
  closed : ∀ w ∈ l, ∀ c, Operand n w c → c ∈ l

/-- Every `grad` of the arena is 0. -/
def ZeroGrads (n : Nodes α) : Prop := ∀ v ∈ n, v.grad = 0

end GradientNotions

section Scenarios
variable {α : Type} [Field α]

/-- The statements `Value<T> a(a, la), b(b, lb), c(c, lc); Value<T> ab = a * b;
Value<T> f = ab + c;` run in the empty state: the state they leave and the
cells of `a`, `b`, `c`, `ab`, `f`. -/
def mulAdd (a b c : α) (la lb lc : String) : State α × Addr × Addr × Addr × Addr × Addr :=
  let r0 := mkValue (State.init α) a la
  let r1 := mkValue r0.1 b lb
  let r2 := mkValue r1.1 c lc
  let r3 := mul r2.1 r0.2 r1.2
  let f := add r3.1 r3.2 r2.2
  (f.1, r0.2, r1.2, r2.2, r3.2, f.2)

/-- The statements `Value<T> a(a, la), b(b, lb); Value<T> s = a + b;
Value<T> d = s * s;` run in the empty state: the state they leave and the
cells of `a`, `b`, `s`, `d`. -/
def diamond (a b : α) (la lb : String) : State α × Addr × Addr × Addr × Addr :=
  let r0 := mkValue (State.init α) a la
  let r1 := mkValue r0.1 b lb
  let s := add r1.1 r0.2 r1.2
  let d := mul s.1 s.2 s.2
  (d.1, r0.2, r1.2, s.2, d.2)

/-- The statements `Value<T> a(a, la); Value<T> out = a.pow_(k);` run in the
empty state, the closure of `out` reading `kRead` for its `k`: the state they
leave and the cells of `a`, `out`. -/
def powScene (a : α) (k kRead : Int) (la : String) : State α × Addr × Addr :=
  let r0 := mkValue (State.init α) a la
  let out := pow_ r0.1 r0.2 k kRead
  (out.1, r0.2, out.2)

/-- The statements `Value<T> a(a, la); Value<T> out = -a;` run in the empty
state: the state they leave and the cells of `a`, `out`. -/
def negScene (a : α) (la : String) : State α × Addr × Addr :=
  let r0 := mkValue (State.init α) a la
  let out := neg r0.1 r0.2
  (out.1, r0.2, out.2)

/-- The statements of the driver `main`, `Value<T> a(a, la), b(b, lb);
Value<T> c = a - b;`, run in the empty state: the state they leave and the
cells of `a`, `b`, `c`. -/
def subScene (a b : α) (la lb : String) : State α × Addr × Addr × Addr :=
  let r0 := mkValue (State.init α) a la
  let r1 := mkValue r0.1 b lb
  let c := sub r1.1 r0.2 r1.2
  (c.1, r0.2, r1.2, c.2)

/-- The statements `Value<T> x(x, lx), y(y, ly); Value<T> p = x + j;
Value<T> q = y + k;` run in the empty state: the state they leave and the
cells of `x`, `y`, `p`, `q`. -/
def addIntScene (x y : α) (lx ly : String) (j k : Int) :
    State α × Addr × Addr × Addr × Addr :=
  let r0 := mkValue (State.init α) x lx
  let r1 := mkValue r0.1 y ly
  let p := addInt r1.1 r0.2 j
  let q := addInt p.1 r1.2 k
  (q.1, r0.2, r1.2, p.2, q.2)

/-- The statements `Value<T> x(x, lx), y(y, ly); Value<T> p = x * j;
Value<T> q = y * k;` run in the empty state: the state they leave and the
cells of `x`, `y`, `p`, `q`. -/
def mulIntScene (x y : α) (lx ly : String) (j k : Int) :
    State α × Addr × Addr × Addr × Addr :=
  let r0 := mkValue (State.init α) x lx
  let r1 := mkValue r0.1 y ly
  let p := mulInt r1.1 r0.2 j
  let q := mulInt p.1 r1.2 k
  (q.1, r0.2, r1.2, p.2, q.2)

/-- The scenario `f = a*b + c` with `a = 2`, `b = -3`, `c = 10`: the
cells 0, 1, 2 hold the leaves, cell 3 holds `a*b` and cell 4 holds `f`. -/
def mulAddState : State ℚ := (mulAdd (2 : ℚ) (-3) 10 "a" "b" "c").1

instance decidableOperand (n : Nodes α) (v c : Addr) : Decidable (Operand n v c) :=
  inferInstanceAs (Decidable (c ∈ prevAt n v))

end Scenarios


section Printing
variable {α : Type} [Field α]

/-- Read of `p->_op`. -/
def opAt (n : Nodes α) (p : Addr) : String := (nodeAt n p)._op

/-- Method `std::string str()`; `toStr` stands for `std::to_string`. -/
def str (toStr : α → String) (n : Nodes α) (p : Addr) : String :=
  labelAt n p ++ "(data=" ++ toStr (dataAt n p) ++ ", grad=" ++ toStr (gradAt n p) ++ ")"

/-- Method `void print()`, on the arena: the traversal of `backward`, the
reversal, the statement `this->grad = 1;`, and one line on `std::cout` for
each entry of `topo`. Returns the arena it leaves and the lines. -/
def printNodes (toStr : α → String) (n : Nodes α) (root : Addr) :
    Option (Nodes α × List String) :=
  (topoOrder n root).map (fun order =>
    (setGrad n root 1, order.map (str toStr (setGrad n root 1))))

/-- Method `void print()`. -/
def print (toStr : α → String) (s : State α) (root : Addr) :
    Option (State α × List String) :=
  (printNodes toStr s.nodes root).map (fun r => ({ s with nodes := r.1 }, r.2))

end Printing

section MoreNotions
variable {α : Type} [Field α]

/-- The objects whose `grad` the closure writes. -/
def Rule.targets : Rule α → List Addr
  | Rule.nop => []
  | Rule.add this other _ => [this, other]
  | Rule.mul this other _ => [this, other]
  | Rule.pow this _ _ => [this]
  | Rule.tanh this _ _ => [this]
  | Rule.exp this _ => [this]

/-- The closure reads nothing that is dead when it is called: it is not one
of the closures of `pow_` and `tanh`. -/
def CapturesLive : Rule α → Prop
  | Rule.pow _ _ _ => False
  | Rule.tanh _ _ _ => False
  | _ => True

/-- The closure of `v` is the empty one, or it reads `v` itself as `out` and
writes existing objects, the first of them not `v`: what holds of a closure
that an operator attached to its result, whatever has been done to the
operand lists since. -/
def OwnClosure (n : Nodes α) (v : Addr) : Prop :=
  match ruleAt n v with
  | Rule.nop => True
  | Rule.add this other out =>
    out = v ∧ this ≠ v ∧ this < n.length ∧ other < n.length
  | Rule.mul this other out =>
    out = v ∧ this ≠ v ∧ this < n.length ∧ other < n.length
  | Rule.pow this _ out => out = v ∧ this < n.length
  | Rule.tanh this _ out => out = v ∧ this < n.length
  | Rule.exp this out => out = v ∧ this < n.length

/-- The closure of `v` writes only objects listed in `v->_prev`, as every
closure that an operator attaches does, and every copy of such an object. -/
def WritesOperands (n : Nodes α) (v : Addr) : Prop :=
  ∀ c ∈ (ruleAt n v).targets, Operand n v c

/-- The traversal from `cs`, on any graph, took `t` to `t2` and appended
`new`: the new entries are distinct, were not marked before, are reachable
from `cs`, and their operands are marked. -/
structure Visit (n : Nodes α) (cs : List Addr) (t t2 : Trav) (new : List Addr) : Prop where
  topo_eq : t2.topo = t.topo ++ new
  visited_iff : ∀ u, u ∈ t2.visited ↔ u ∈ t.visited ∨ u ∈ new
  nodup : new.Nodup
  fresh : ∀ u ∈ new, u ∉ t.visited
  reach : ∀ u ∈ new, ∃ c ∈ cs, Reachable n c u
  roots : ∀ c ∈ cs, c ∈ t2.visited
  closed : ∀ u ∈ new, ∀ c, Operand n u c → c ∈ t2.visited

/-- The operator call that took `s` to `r.1` and returned `r.2` built one
new object, with `grad` 0 and the operand list `ops`, and left every object
that existed as it was. -/
def FreshResult (s : State α) (r : State α × Addr) (ops : List Addr) : Prop :=
  r.2 = s.nodes.length ∧ r.1.nodes.length = s.nodes.length + 1 ∧
  (∀ p, p < s.nodes.length → nodeAt r.1.nodes p = nodeAt s.nodes p) ∧
  gradAt r.1.nodes r.2 = 0 ∧ prevAt r.1.nodes r.2 = ops

/-- The states a program reaches from the empty state by declarations of
leaves, the operators of `Value` applied to existing objects, and
`backward`. -/
inductive Constructed (expf : α → α) : State α → Prop where
  | init : Constructed expf (State.init α)
  | mkValue {s : State α} (data : α) (label : String) :
      Constructed expf s → Constructed expf (mkValue s data label).1
  | add {s : State α} (this other : Addr) : Constructed expf s → this < s.nodes.length →
      other < s.nodes.length → Constructed expf (add s this other).1
  | mul {s : State α} (this other : Addr) : Constructed expf s → this < s.nodes.length →
      other < s.nodes.length → Constructed expf (mul s this other).1
  | addInt {s : State α} (this : Addr) (k : Int) : Constructed expf s →
      this < s.nodes.length → Constructed expf (addInt s this k).1
  | mulInt {s : State α} (this : Addr) (k : Int) : Constructed expf s →
      this < s.nodes.length → Constructed expf (mulInt s this k).1
  | pow_ {s : State α} (this : Addr) (k kRead : Int) : Constructed expf s →
      this < s.nodes.length → Constructed expf (pow_ s this k kRead).1
  | neg {s : State α} (this : Addr) : Constructed expf s →
      this < s.nodes.length → Constructed expf (neg s this).1
  | sub {s : State α} (this other : Addr) : Constructed expf s → this < s.nodes.length →
      other < s.nodes.length → Constructed expf (sub s this other).1
  | div {s : State α} (this other : Addr) (kRead : Int) : Constructed expf s →
      this < s.nodes.length → other < s.nodes.length →
      Constructed expf (div s this other kRead).1
  | tanh {s : State α} (this : Addr) (tRead : α) : Constructed expf s →
      this < s.nodes.length → Constructed expf (tanh expf s this tRead).1
  | exp_ {s : State α} (this : Addr) : Constructed expf s →
      this < s.nodes.length → Constructed expf (exp_ expf s this).1
  | backward {s s2 : State α} (root : Addr) : Constructed expf s →
      backward s root = some s2 → Constructed expf s2

/-- Every operand pointer and every static refers to an object, and every
closure writes operands of its own object. -/
structure WellFormed (s : State α) : Prop where
  valid : ValidRefs s.nodes
  writes : ∀ v, WritesOperands s.nodes v
  add_int : ∀ p, s.add_int_other = some p → p < s.nodes.length
  mul_int : ∀ p, s.mul_int_other = some p → p < s.nodes.length
  div_pow : ∀ p, s.div_pow = some p → p < s.nodes.length
  sub_neg : ∀ p, s.sub_neg_other = some p → p < s.nodes.length

end MoreNotions

section MoreScenarios
variable {α : Type} [Field α]

/-- The statements `Value<T> a(a, la), b(b, lb), c(c, lc), d(d, ld);
Value<T> q1 = a / b; Value<T> q2 = c / d;` run in the empty state, the closure
of the static of `operator/` reading `kRead` for its `k`: the state they
leave and the cells of `a`, `b`, `c`, `d`, `q1`, `q2`. -/
def divTwiceScene (a b c d : α) (la lb lc ld : String) (kRead : Int) :
    State α × Addr × Addr × Addr × Addr × Addr × Addr :=
  let r0 := mkValue (State.init α) a la
  let r1 := mkValue r0.1 b lb
  let r2 := mkValue r1.1 c lc
  let r3 := mkValue r2.1 d ld
  let q1 := div r3.1 r0.2 r1.2 kRead
  let q2 := div q1.1 r2.2 r3.2 kRead
  (q2.1, r0.2, r1.2, r2.2, r3.2, q1.2, q2.2)

/-- The statements of `divTwiceScene` followed by `Value<T> r = q2 * d;`: the
state they leave and the cells of `c`, `d`, `q2`, `r`. -/
def divRoundTripScene (a b c d : α) (la lb lc ld : String) (kRead : Int) :
    State α × Addr × Addr × Addr × Addr :=
  let r0 := mkValue (State.init α) a la
  let r1 := mkValue r0.1 b lb
  let r2 := mkValue r1.1 c lc
  let r3 := mkValue r2.1 d ld
  let q1 := div r3.1 r0.2 r1.2 kRead
  let q2 := div q1.1 r2.2 r3.2 kRead
  let r := mul q2.1 q2.2 r3.2
  (r.1, r2.2, r3.2, q2.2, r.2)

/-- The statements `Value<T> a(a, la), b(b, lb); Value<T> f = a / b;` run in
the empty state, where this is the first division: the state they leave and
the cells of `a`, `b`, `f`. -/
def divScene (a b : α) (la lb : String) (kRead : Int) : State α × Addr × Addr × Addr :=
  let r0 := mkValue (State.init α) a la
  let r1 := mkValue r0.1 b lb
  let f := div r1.1 r0.2 r1.2 kRead
  (f.1, r0.2, r1.2, f.2)

/-- The statements `Value<T> a(a, la), b(b, lb); Value<T> f = a / b;
Value<T> r = f * b;` run in the empty state: the state they leave and the
cells of `a`, `b`, `f`, `r`. -/
def divMulScene (a b : α) (la lb : String) (kRead : Int) :
    State α × Addr × Addr × Addr × Addr :=
  let r0 := mkValue (State.init α) a la
  let r1 := mkValue r0.1 b lb
  let f := div r1.1 r0.2 r1.2 kRead
  let r := mul f.1 f.2 r1.2
  (r.1, r0.2, r1.2, f.2, r.2)

/-- The statements `Value<float> a(2, "a"), b(3, "b"); Value<float> c = a * b;
a._prev.push_back(&c);`: the cells 0, 1, 2 hold `a`, `b`, `c`, and `a` and
`c` are operands of each other. -/
def cycleNodes : Nodes ℚ :=
  List.modify (fun v => { v with _prev := v._prev ++ [2] }) 0
    (mul (mkValue (mkValue (State.init ℚ) 2 "a").1 3 "b").1 0 1).1.nodes

/-- The state the driver `main` is in when it calls `c.print()`. -/
def mainState : State ℚ := (subScene (2 : ℚ) 4 "a" "b").1

end MoreScenarios

section Traversal
variable {α : Type} [Field α]

theorem visitAll_nil (n : Nodes α) (fuel : Nat) (t : Trav) : visitAll n fuel [] t = some t := rfl

theorem visitAll_cons (n : Nodes α) (fuel : Nat) (c : Addr) (cs : List Addr) (t : Trav) :
    visitAll n fuel (c :: cs) t = (b_topo n fuel c t).bind (visitAll n fuel cs) := by
  simp [visitAll, List.foldlM_cons]

theorem b_topo_succ (n : Nodes α) (fuel : Nat) (v : Addr) (t : Trav) :
    b_topo n (fuel + 1) v t =
      if v ∈ t.visited then some t
      else (visitAll n fuel (prevAt n v) ⟨v :: t.visited, t.topo⟩).map
        (fun t2 => ⟨t2.visited, t2.topo ++ [v]⟩) := by
  rw [b_topo]
  split
  · rfl
  · unfold visitAll
    cases List.foldlM (fun acc child => b_topo n fuel child acc) ⟨v :: t.visited, t.topo⟩ (prevAt n v) <;> rfl


theorem reachable_closed {n : Nodes α} {t : Trav} (hi : TravInv n t) {v u : Addr}
    (hv : v ∈ t.topo) (hr : Reachable n v u) : u ∈ t.topo := by
  induction hr with
  | refl => exact hv
  | tail _ hbc ih => exact hi.closed _ ih _ hbc

theorem visitAll_sound {n : Nodes α} {fuel : Nat}
    (hnode : ∀ v t t2, b_topo n fuel v t = some t2 → TravInv n t → Settled n t [v] →
      TravInv n t2 ∧ ∃ new, Extends n [v] t t2 new) :
    ∀ cs t t2, visitAll n fuel cs t = some t2 → TravInv n t → Settled n t cs →
      TravInv n t2 ∧ ∃ new, Extends n cs t t2 new := by
  intro cs
  induction cs with
  | nil =>
    intro t t2 h hi _
    rw [visitAll_nil] at h
    cases h
    refine ⟨hi, [], ?_⟩
    exact ⟨by simp, by simp, List.nodup_nil, by simp, by simp⟩
  | cons c cs ih =>
    intro t t2 h hi hs
    rw [visitAll_cons] at h
    cases h1 : b_topo n fuel c t with
    | none => rw [h1] at h; cases h
    | some t1 =>
      rw [h1] at h
      have hs1 : Settled n t [c] := by
        intro c' hc' u hu huv
        rw [List.mem_singleton] at hc'
        subst hc'
        exact hs c' (List.mem_cons_self _ _) u hu huv
      obtain ⟨hi1, new1, e1⟩ := hnode c t t1 h1 hi hs1
      have hs2 : Settled n t1 cs := by
        intro c' hc' u hu huv
        rw [e1.topo_eq]
        rcases (e1.visited_iff u).1 huv with h' | h'
        · exact List.mem_append_left _ (hs c' (List.mem_cons_of_mem _ hc') u hu h')
        · exact List.mem_append_right _ h'
      obtain ⟨hi2, new2, e2⟩ := ih t1 t2 h hi1 hs2
      refine ⟨hi2, new1 ++ new2, ?_⟩
      constructor
      · rw [e2.topo_eq, e1.topo_eq, List.append_assoc]
      · intro u
        rw [e2.visited_iff, e1.visited_iff, List.mem_append, or_assoc]
      · rw [List.nodup_append]
        refine ⟨e1.nodup, e2.nodup, ?_⟩
        intro u hu1 hu2
        exact e2.fresh u hu2 ((e1.visited_iff u).2 (Or.inr hu1))
      · intro u hu
        rcases List.mem_append.1 hu with h' | h'
        · exact e1.fresh u h'
        · exact fun hv => e2.fresh u h' ((e1.visited_iff u).2 (Or.inl hv))
      · intro u
        rw [List.mem_append, e1.mem_iff, e2.mem_iff, e1.topo_eq]
        constructor
        · rintro (⟨⟨c', hc', hr⟩, hn⟩ | ⟨⟨c', hc', hr⟩, hn⟩)
          · rw [List.mem_singleton] at hc'
            subst hc'
            exact ⟨⟨c', List.mem_cons_self _ _, hr⟩, hn⟩
          · exact ⟨⟨c', List.mem_cons_of_mem _ hc', hr⟩,
              fun h' => hn (List.mem_append_left _ h')⟩
        · rintro ⟨⟨c', hc', hr⟩, hn⟩
          rcases List.mem_cons.1 hc' with h' | h'
          · subst h'
            exact Or.inl ⟨⟨c', List.mem_singleton_self _, hr⟩, hn⟩
          · by_cases hu : u ∈ new1
            · exact Or.inl ((e1.mem_iff u).1 hu)
            · refine Or.inr ⟨⟨c', h', hr⟩, ?_⟩
              intro h4
              rcases List.mem_append.1 h4 with h3 | h3
              · exact hn h3
              · exact hu h3


theorem b_topo_sound {n : Nodes α} (ha : Acyclic n) :
    ∀ fuel v t t2, b_topo n fuel v t = some t2 → TravInv n t → Settled n t [v] →
      TravInv n t2 ∧ ∃ new, Extends n [v] t t2 new := by
  intro fuel
  induction fuel with
  | zero => intro v t t2 h; simp [b_topo] at h
  | succ fuel ih =>
    intro v t t2 h hi hs
    rw [b_topo_succ] at h
    by_cases hv : v ∈ t.visited
    · rw [if_pos hv] at h
      cases h
      refine ⟨hi, [], ?_⟩
      refine ⟨by simp, by simp, List.nodup_nil, by simp, ?_⟩
      intro u
      simp only [List.not_mem_nil, List.mem_singleton, exists_eq_left, false_iff, not_and,
        not_not]
      intro hr
      exact reachable_closed hi (hs v (List.mem_singleton_self _) v Relation.ReflTransGen.refl hv) hr
    · rw [if_neg hv] at h
      cases h1 : visitAll n fuel (prevAt n v) ⟨v :: t.visited, t.topo⟩ with
      | none => rw [h1] at h; cases h
      | some t1 =>
        rw [h1] at h
        cases h
        have hvt : v ∉ t.topo := fun h' => hv (hi.sub v h')
        have hi0 : TravInv n ⟨v :: t.visited, t.topo⟩ :=
          ⟨fun u hu => List.mem_cons_of_mem _ (hi.sub u hu), hi.closed, hi.sorted⟩
        have hs0 : Settled n ⟨v :: t.visited, t.topo⟩ (prevAt n v) := by
          intro c hc u hu huv
          rcases List.mem_cons.1 huv with h' | h'
          · subst h'
            exact absurd (Relation.TransGen.head' hc hu) (ha u)
          · exact hs v (List.mem_singleton_self _) u (Relation.ReflTransGen.head hc hu) h'
        obtain ⟨hi1, new1, e1⟩ := visitAll_sound ih (prevAt n v) _ t1 h1 hi0 hs0
        have hv1 : v ∉ new1 := fun h' => e1.fresh v h' (List.mem_cons_self _ _)
        have hvt1 : v ∉ t1.topo := by
          rw [e1.topo_eq]
          intro h'
          rcases List.mem_append.1 h' with h3 | h3
          · exact hvt h3
          · exact hv1 h3
        have hchild : ∀ c, Operand n v c → c ∈ t1.topo := by
          intro c hc
          rw [e1.topo_eq]
          by_cases hct : c ∈ t.topo
          · exact List.mem_append_left _ hct
          · exact List.mem_append_right _
              ((e1.mem_iff c).2 ⟨⟨c, hc, Relation.ReflTransGen.refl⟩, hct⟩)
        refine ⟨⟨?_, ?_, ?_⟩, new1 ++ [v], ?_⟩
        · intro u hu
          rcases List.mem_append.1 hu with h' | h'
          · exact hi1.sub u h'
          · rw [List.mem_singleton] at h'
            subst h'
            exact (e1.visited_iff u).2 (Or.inl (List.mem_cons_self _ _))
        · intro u hu c hc
          rcases List.mem_append.1 hu with h' | h'
          · exact List.mem_append_left _ (hi1.closed u h' c hc)
          · rw [List.mem_singleton] at h'
            subst h'
            exact List.mem_append_left _ (hchild c hc)
        · rw [List.pairwise_append]
          refine ⟨hi1.sorted, List.pairwise_singleton _ _, ?_⟩
          intro x hx y hy hxy
          rw [List.mem_singleton] at hy
          subst hy
          exact hvt1 (hi1.closed x hx y hxy)
        · constructor
          · show t1.topo ++ [v] = t.topo ++ (new1 ++ [v])
            rw [e1.topo_eq, List.append_assoc]
          · intro u
            show u ∈ t1.visited ↔ _
            rw [e1.visited_iff, List.mem_append, List.mem_singleton, List.mem_cons]
            tauto
          · rw [List.nodup_append]
            refine ⟨e1.nodup, List.nodup_singleton _, ?_⟩
            intro u hu1 hu2
            rw [List.mem_singleton] at hu2
            subst hu2
            exact hv1 hu1
          · intro u hu
            rcases List.mem_append.1 hu with h' | h'
            · exact fun h3 => e1.fresh u h' (List.mem_cons_of_mem _ h3)
            · rw [List.mem_singleton] at h'
              subst h'
              exact hv
          · intro u
            rw [List.mem_append, e1.mem_iff, List.mem_singleton]
            constructor
            · rintro (⟨⟨c, hc, hr⟩, hn⟩ | rfl)
              · exact ⟨⟨v, List.mem_singleton_self _, Relation.ReflTransGen.head hc hr⟩, hn⟩
              · exact ⟨⟨u, List.mem_singleton_self _, Relation.ReflTransGen.refl⟩, hvt⟩
            · rintro ⟨⟨c, hc, hr⟩, hn⟩
              rw [List.mem_singleton] at hc
              subst hc
              rcases Relation.ReflTransGen.cases_head hr with h' | ⟨c', hc', hr'⟩
              · exact Or.inr h'.symm
              · exact Or.inl ⟨⟨c', hc', hr'⟩, hn⟩


theorem b_topo_last {n : Nodes α} {fuel : Nat} {v : Addr} {t t2 : Trav}
    (h : b_topo n fuel v t = some t2) (hv : v ∉ t.visited) : ∃ l, t2.topo = l ++ [v] := by
  cases fuel with
  | zero => simp [b_topo] at h
  | succ fuel =>
    rw [b_topo_succ, if_neg hv] at h
    cases h1 : visitAll n fuel (prevAt n v) ⟨v :: t.visited, t.topo⟩ with
    | none => rw [h1] at h; cases h
    | some t1 =>
      rw [h1] at h
      cases h
      exact ⟨t1.topo, rfl⟩

theorem unvisited_mono (n : Nat) {v1 v2 : List Addr} (h : ∀ a ∈ v1, a ∈ v2) :
    (unvisited n v2).card ≤ (unvisited n v1).card := by
  apply Finset.card_le_card
  intro a
  simp only [unvisited, Finset.mem_filter, Finset.mem_range]
  exact fun ⟨h1, h2⟩ => ⟨h1, fun h3 => h2 (h a h3)⟩

theorem unvisited_cons (n : Nat) {v : Addr} {vis : List Addr} (hv : v < n)
    (hn : v ∉ vis) : (unvisited n (v :: vis)).card < (unvisited n vis).card := by
  apply Finset.card_lt_card
  rw [Finset.ssubset_iff_of_subset]
  · refine ⟨v, ?_, ?_⟩
    · simp [unvisited, hv, hn]
    · simp [unvisited]
  · intro a
    simp only [unvisited, Finset.mem_filter, Finset.mem_range, List.mem_cons, not_or]
    exact fun ⟨h1, _, h2⟩ => ⟨h1, h2⟩

theorem visitAll_total {n : Nodes α} {fuel : Nat}
    (hnode : ∀ v t, v < n.length → (unvisited n.length t.visited).card < fuel →
      ∃ t2, b_topo n fuel v t = some t2 ∧ ∀ a ∈ t.visited, a ∈ t2.visited) :
    ∀ cs t, (∀ c ∈ cs, c < n.length) → (unvisited n.length t.visited).card < fuel →
      ∃ t2, visitAll n fuel cs t = some t2 ∧ ∀ a ∈ t.visited, a ∈ t2.visited := by
  intro cs
  induction cs with
  | nil => intro t _ _; exact ⟨t, rfl, fun _ h => h⟩
  | cons c cs ih =>
    intro t hc hf
    obtain ⟨t1, h1, hm1⟩ := hnode c t (hc c (List.mem_cons_self _ _)) hf
    obtain ⟨t2, h2, hm2⟩ := ih t1 (fun c' h' => hc c' (List.mem_cons_of_mem _ h'))
      (lt_of_le_of_lt (unvisited_mono n.length hm1) hf)
    refine ⟨t2, ?_, fun a h => hm2 a (hm1 a h)⟩
    rw [visitAll_cons, h1]
    exact h2

theorem b_topo_total {n : Nodes α} (hv : ValidRefs n) :
    ∀ fuel v t, v < n.length → (unvisited n.length t.visited).card < fuel →
      ∃ t2, b_topo n fuel v t = some t2 ∧ ∀ a ∈ t.visited, a ∈ t2.visited := by
  intro fuel
  induction fuel with
  | zero => intro v t _ h; exact absurd h (Nat.not_lt_zero _)
  | succ fuel ih =>
    intro v t hlt hf
    rw [b_topo_succ]
    by_cases hm : v ∈ t.visited
    · rw [if_pos hm]
      exact ⟨t, rfl, fun _ h => h⟩
    · rw [if_neg hm]
      have hf2 : (unvisited n.length (v :: t.visited)).card < fuel :=
        lt_of_lt_of_le (unvisited_cons n.length hlt hm) (Nat.lt_succ_iff.1 hf)
      obtain ⟨t1, h1, hm1⟩ := visitAll_total ih (prevAt n v) ⟨v :: t.visited, t.topo⟩
        (fun c hc => hv v c hc) hf2
      rw [h1]
      exact ⟨_, rfl, fun a h => hm1 a (List.mem_cons_of_mem _ h)⟩


theorem pairwise_of_indexOf_lt {R : Addr → Addr → Prop} {l : List Addr} (hp : l.Pairwise R)
    {a b : Addr} (hb : b ∈ l) (hlt : l.indexOf a < l.indexOf b) : R a b := by
  have hbl : l.indexOf b < l.length := List.indexOf_lt_length.2 hb
  have hal : l.indexOf a < l.length := lt_trans hlt hbl
  have h := List.pairwise_iff_getElem.1 hp (l.indexOf a) (l.indexOf b) hal hbl hlt
  rwa [List.getElem_indexOf, List.getElem_indexOf] at h

/-- What the traversal of `backward` computes on an acyclic graph. -/
theorem topoOrder_spec {n : Nodes α} {root : Addr} (hv : ValidRefs n) (hr : root < n.length)
    (ha : Acyclic n) :
    ∃ order, topoOrder n root = some order ∧ order.Nodup ∧
      (∀ v, v ∈ order ↔ Reachable n root v) ∧ (∃ rest, order = root :: rest) ∧
      (∀ v ∈ order, ∀ c, Operand n v c → c ∈ order) ∧
      order.Pairwise (fun x y => ¬ Operand n y x) := by
  have hfuel : (unvisited n.length []).card < n.length + 1 := by
    refine Nat.lt_succ_of_le ?_
    calc (unvisited n.length []).card ≤ (Finset.range n.length).card :=
          Finset.card_le_card (Finset.filter_subset _ _)
      _ = n.length := Finset.card_range _
  obtain ⟨t2, h2, _⟩ := b_topo_total hv (n.length + 1) root ⟨[], []⟩ hr hfuel
  have hi0 : TravInv n ⟨[], []⟩ := ⟨by simp, by simp, List.Pairwise.nil⟩
  have hs0 : Settled n ⟨[], []⟩ [root] := by intro c _ u _ h; simp at h
  obtain ⟨hi, new, e⟩ := b_topo_sound ha _ root _ t2 h2 hi0 hs0
  obtain ⟨l, hl⟩ := b_topo_last h2 (List.not_mem_nil root)
  have htopo : t2.topo = new := by rw [e.topo_eq]; rfl
  refine ⟨t2.topo.reverse, ?_, ?_, ?_, ?_, ?_, ?_⟩
  · simp [topoOrder, h2]
  · rw [List.nodup_reverse, htopo]; exact e.nodup
  · intro v
    rw [List.mem_reverse, htopo, e.mem_iff]
    simp [Reachable]
  · exact ⟨l.reverse, by rw [hl]; simp⟩
  · intro v hm c hc
    rw [List.mem_reverse] at hm ⊢
    exact hi.closed v hm c hc
  · rw [List.pairwise_reverse]
    exact hi.sorted

theorem topoOrder_backwardNodes {n : Nodes α} {root : Addr} {order : List Addr}
    (h : topoOrder n root = some order) :
    backwardNodes n root = some (replay (setGrad n root 1) order) := by
  simp [backwardNodes, h]

theorem topoOrder_backward {n : Nodes α} {root : Addr} {order : List Addr} (s : State α)
    (hn : s.nodes = n) (h : topoOrder n root = some order) :
    backward s root = some { s with nodes := replay (setGrad n root 1) order } := by
  subst hn
  simp [backward, backwardNodes, h]

theorem not_operand_self {n : Nodes α} (ha : Acyclic n) (v : Addr) : ¬ Operand n v v :=
  fun h => ha v (Relation.TransGen.single h)

end Traversal

@[simp] theorem length_setGrad {α : Type} (n : Nodes α) (p : Addr) (x : α) :
    (setGrad n p x).length = n.length := by simp [setGrad]

section Frame
variable {α : Type} [Field α]

theorem nodeAt_modify (n : Nodes α) (f : Value α → Value α) (p q : Addr) :
    nodeAt (n.modify f p) q = if p = q ∧ q < n.length then f (nodeAt n q) else nodeAt n q := by
  unfold nodeAt
  rw [List.getD_eq_getElem?_getD, List.getD_eq_getElem?_getD, List.getElem?_modify]
  by_cases hq : q < n.length
  · rw [List.getElem?_eq_getElem hq]
    by_cases hp : p = q <;> simp [hp, hq]
  · rw [List.getElem?_eq_none (not_lt.1 hq)]
    simp [hq]

theorem nodeAt_of_le (n : Nodes α) {p : Addr} (h : n.length ≤ p) : nodeAt n p = Value.blank := by
  unfold nodeAt
  exact List.getD_eq_default _ _ h

@[simp] theorem length_addGrad (n : Nodes α) (p : Addr) (x : α) :
    (addGrad n p x).length = n.length := by simp [addGrad]

@[simp] theorem dataAt_addGrad (n : Nodes α) (p : Addr) (x : α) (q : Addr) :
    dataAt (addGrad n p x) q = dataAt n q := by
  simp only [dataAt, addGrad, nodeAt_modify]; split <;> rfl

@[simp] theorem prevAt_addGrad (n : Nodes α) (p : Addr) (x : α) (q : Addr) :
    prevAt (addGrad n p x) q = prevAt n q := by
  simp only [prevAt, addGrad, nodeAt_modify]; split <;> rfl

@[simp] theorem ruleAt_addGrad (n : Nodes α) (p : Addr) (x : α) (q : Addr) :
    ruleAt (addGrad n p x) q = ruleAt n q := by
  simp only [ruleAt, addGrad, nodeAt_modify]; split <;> rfl

@[simp] theorem dataAt_setGrad (n : Nodes α) (p : Addr) (x : α) (q : Addr) :
    dataAt (setGrad n p x) q = dataAt n q := by
  simp only [dataAt, setGrad, nodeAt_modify]; split <;> rfl

@[simp] theorem prevAt_setGrad (n : Nodes α) (p : Addr) (x : α) (q : Addr) :
    prevAt (setGrad n p x) q = prevAt n q := by
  simp only [prevAt, setGrad, nodeAt_modify]; split <;> rfl

@[simp] theorem ruleAt_setGrad (n : Nodes α) (p : Addr) (x : α) (q : Addr) :
    ruleAt (setGrad n p x) q = ruleAt n q := by
  simp only [ruleAt, setGrad, nodeAt_modify]; split <;> rfl

theorem gradAt_addGrad (n : Nodes α) {p : Addr} (hp : p < n.length) (x : α) (q : Addr) :
    gradAt (addGrad n p x) q = gradAt n q + if q = p then x else 0 := by
  simp only [gradAt, addGrad, nodeAt_modify]
  by_cases h : q = p
  · subst h; simp [hp]
  · have : ¬ (p = q ∧ q < n.length) := fun h' => h h'.1.symm
    simp [h, this]

theorem gradAt_setGrad (n : Nodes α) {p : Addr} (hp : p < n.length) (x : α) (q : Addr) :
    gradAt (setGrad n p x) q = if q = p then x else gradAt n q := by
  simp only [gradAt, setGrad, nodeAt_modify]
  by_cases h : q = p
  · subst h; simp [hp]
  · have : ¬ (p = q ∧ q < n.length) := fun h' => h h'.1.symm
    simp [h, this]

theorem gradAt_addGrad_ne (n : Nodes α) (p : Addr) (x : α) {q : Addr} (h : q ≠ p) :
    gradAt (addGrad n p x) q = gradAt n q := by
  simp only [gradAt, addGrad, nodeAt_modify]
  have : ¬ (p = q ∧ q < n.length) := fun h' => h h'.1.symm
  simp [this]


theorem frozen_modify_grad (n : Nodes α) (g : Value α → α) (p : Addr) :
    (n.modify (fun v => { v with grad := g v }) p).map Value.frozen = n.map Value.frozen := by
  induction n generalizing p with
  | nil => simp
  | cons a n ih =>
    cases p with
    | zero => simp [Value.frozen]
    | succ p => simp [ih]

theorem sameShape_refl (n : Nodes α) : SameShape n n := rfl

theorem sameShape_addGrad {n m : Nodes α} (h : SameShape n m) (p : Addr) (x : α) :
    SameShape n (addGrad m p x) := by
  unfold SameShape addGrad
  rw [frozen_modify_grad m (fun v => v.grad + x) p]
  exact h

theorem sameShape_setGrad {n m : Nodes α} (h : SameShape n m) (p : Addr) (x : α) :
    SameShape n (setGrad m p x) := by
  unfold SameShape setGrad
  rw [frozen_modify_grad m (fun _ => x) p]
  exact h

theorem sameShape_runRule {n m : Nodes α} (h : SameShape n m) (r : Rule α) :
    SameShape n (runRule m r) := by
  cases r <;> simp only [runRule] <;>
    first
      | exact h
      | exact sameShape_addGrad (sameShape_addGrad h _ _) _ _
      | exact sameShape_addGrad h _ _

theorem sameShape_replay {n m : Nodes α} (h : SameShape n m) (order : List Addr) :
    SameShape n (replay m order) := by
  induction order generalizing m with
  | nil => exact h
  | cons v order ih => exact ih (sameShape_runRule h _)

theorem SameShape.length_eq {n m : Nodes α} (h : SameShape n m) : m.length = n.length := by
  have := congrArg List.length h
  simpa using this

theorem SameShape.frozen_nodeAt {n m : Nodes α} (h : SameShape n m) (p : Addr) :
    (nodeAt m p).frozen = (nodeAt n p).frozen := by
  have hb : (Value.blank : Value α) = Value.frozen Value.blank := rfl
  have hm : (nodeAt m p).frozen = (m.map Value.frozen).getD p Value.blank := by
    unfold nodeAt; rw [hb, List.getD_map]; rfl
  have hn : (nodeAt n p).frozen = (n.map Value.frozen).getD p Value.blank := by
    unfold nodeAt; rw [hb, List.getD_map]; rfl
  rw [hm, hn, h]

theorem SameShape.dataAt_eq {n m : Nodes α} (h : SameShape n m) (p : Addr) :
    dataAt m p = dataAt n p := by
  have h1 := congrArg Value.data (h.frozen_nodeAt p)
  exact h1

theorem SameShape.prevAt_eq {n m : Nodes α} (h : SameShape n m) (p : Addr) :
    prevAt m p = prevAt n p := by
  have h1 := congrArg Value._prev (h.frozen_nodeAt p)
  exact h1

theorem SameShape.ruleAt_eq {n m : Nodes α} (h : SameShape n m) (p : Addr) :
    ruleAt m p = ruleAt n p := by
  have h1 := congrArg Value._backward (h.frozen_nodeAt p)
  exact h1

theorem SameShape.labelAt_eq {n m : Nodes α} (h : SameShape n m) (p : Addr) :
    labelAt m p = labelAt n p := by
  have h1 := congrArg Value.label (h.frozen_nodeAt p)
  exact h1

theorem SameShape.symm {n m : Nodes α} (h : SameShape n m) : SameShape m n := Eq.symm h

theorem SameShape.trans {n m k : Nodes α} (h1 : SameShape n m) (h2 : SameShape m k) :
    SameShape n k := Eq.trans h2 h1

theorem prevAt_of_le (n : Nodes α) {p : Addr} (h : n.length ≤ p) : prevAt n p = [] := by
  unfold prevAt; rw [nodeAt_of_le n h]; rfl

theorem b_topo_congr {n m : Nodes α} (h : ∀ p, prevAt m p = prevAt n p) :
    ∀ fuel v t, b_topo m fuel v t = b_topo n fuel v t := by
  intro fuel
  induction fuel with
  | zero => intro v t; rfl
  | succ fuel ih =>
    intro v t
    have hva : ∀ cs t, visitAll m fuel cs t = visitAll n fuel cs t := by
      intro cs
      induction cs with
      | nil => intro t; rfl
      | cons c cs ihc => intro t; rw [visitAll_cons, visitAll_cons, ih]; congr 1; funext t1; exact ihc t1
    rw [b_topo_succ, b_topo_succ, h, hva]

theorem topoOrder_congr {n m : Nodes α} (h : SameShape n m) (root : Addr) :
    topoOrder m root = topoOrder n root := by
  unfold topoOrder
  rw [h.length_eq, b_topo_congr h.prevAt_eq]

end Frame
section Gradients
variable {α : Type} [Field α]

theorem gradAt_runRule {m : Nodes α} {v : Addr} (hc : Coherent m v) (hv : ValidRefs m)
    (hs : ¬ Operand m v v) (u : Addr) :
    gradAt (runRule m (ruleAt m v)) u = gradAt m u + contrib m (ruleAt m v) (gradAt m v) u := by
  unfold Coherent at hc
  have hval : ∀ c, c ∈ prevAt m v → c < m.length ∧ v ≠ c := fun c hcm =>
    ⟨hv v c hcm, fun h => hs (by rw [h] at hcm ⊢; exact hcm)⟩
  cases hr : ruleAt m v with
  | nop => simp [runRule, contrib]
  | add a b out =>
    rw [hr] at hc
    obtain ⟨rfl, hp⟩ := hc
    obtain ⟨ha, hna⟩ := hval a (by simp [hp])
    obtain ⟨hb, hnb⟩ := hval b (by simp [hp])
    simp only [runRule, contrib]
    rw [gradAt_addGrad _ (by simpa using hb), gradAt_addGrad _ ha, gradAt_addGrad_ne _ _ _ hna,
      add_assoc]
  | mul a b out =>
    rw [hr] at hc
    obtain ⟨rfl, hp⟩ := hc
    obtain ⟨ha, hna⟩ := hval a (by simp [hp])
    obtain ⟨hb, hnb⟩ := hval b (by simp [hp])
    simp only [runRule, contrib]
    rw [gradAt_addGrad _ (by simpa using hb), gradAt_addGrad _ ha, gradAt_addGrad_ne _ _ _ hna,
      dataAt_addGrad, add_assoc]
  | pow a k out =>
    rw [hr] at hc
    obtain ⟨rfl, hp⟩ := hc
    obtain ⟨ha, hna⟩ := hval a (by simp [hp])
    simp only [runRule, contrib]
    rw [gradAt_addGrad _ ha]
  | tanh a t out =>
    rw [hr] at hc
    obtain ⟨rfl, hp⟩ := hc
    obtain ⟨ha, hna⟩ := hval a (by simp [hp])
    simp only [runRule, contrib]
    rw [gradAt_addGrad _ ha]
  | exp a out =>
    rw [hr] at hc
    obtain ⟨rfl, hp⟩ := hc
    obtain ⟨ha, hna⟩ := hval a (by simp [hp])
    simp only [runRule, contrib]
    rw [gradAt_addGrad _ ha]

theorem contrib_eq_zero {m : Nodes α} {v : Addr} (hc : Coherent m v) {u : Addr}
    (hu : ¬ Operand m v u) (g : α) : contrib m (ruleAt m v) g u = 0 := by
  unfold Coherent at hc
  unfold Operand at hu
  cases hr : ruleAt m v <;> rw [hr] at hc <;> simp only [contrib] <;>
    first
      | rfl
      | (obtain ⟨_, hp⟩ := hc
         rw [hp] at hu
         simp only [List.mem_cons, List.mem_singleton, List.not_mem_nil, or_false, not_or] at hu
         simp [hu])

theorem contrib_congr {n m : Nodes α} (h : SameShape n m) (r : Rule α) (g : α) (u : Addr) :
    contrib m r g u = contrib n r g u := by
  cases r <;> simp only [contrib, h.dataAt_eq]

theorem coherent_congr {n m : Nodes α} (h : SameShape n m) {v : Addr} (hc : Coherent n v) :
    Coherent m v := by
  unfold Coherent at hc ⊢
  rw [h.ruleAt_eq, h.prevAt_eq]
  exact hc

theorem operand_congr {n m : Nodes α} (h : SameShape n m) {v c : Addr} :
    Operand m v c ↔ Operand n v c := by
  unfold Operand; rw [h.prevAt_eq]

theorem validRefs_congr {n m : Nodes α} (h : SameShape n m) (hv : ValidRefs n) :
    ValidRefs m := by
  intro v c hc
  rw [h.length_eq]
  exact hv v c ((operand_congr h).1 hc)

/-- One closure call, seen from `n`, of which the current arena `m` differs
in `grad` fields only. -/
theorem gradAt_step {n m : Nodes α} (h : SameShape n m) {v : Addr} (hc : Coherent n v)
    (hv : ValidRefs n) (hs : ¬ Operand n v v) (u : Addr) :
    gradAt (runRule m (ruleAt m v)) u = gradAt m u + contrib n (ruleAt n v) (gradAt m v) u := by
  rw [gradAt_runRule (coherent_congr h hc) (validRefs_congr h hv)
    (fun h' => hs ((operand_congr h).1 h')), contrib_congr h, h.ruleAt_eq]

/-- Replaying closures of objects of which `x` is no operand leaves
`x->grad` alone. -/
theorem gradAt_replay_frame {n : Nodes α} (hv : ValidRefs n) (ha : Acyclic n) {x : Addr}
    (order : List Addr) :
    ∀ m, SameShape n m → (∀ w ∈ order, Coherent n w ∧ ¬ Operand n w x) →
      gradAt (replay m order) x = gradAt m x := by
  induction order with
  | nil => intro m _ _; rfl
  | cons w order ih =>
    intro m h hw
    obtain ⟨hcw, hnw⟩ := hw w (List.mem_cons_self _ _)
    show gradAt (replay (runRule m (ruleAt m w)) order) x = _
    rw [ih _ (sameShape_runRule h _) (fun w' h' => hw w' (List.mem_cons_of_mem _ h')),
      gradAt_step h hcw hv (not_operand_self ha w), contrib_eq_zero hcw hnw _, add_zero]


/-- The `grad` of an object whose only consumer is the root, after one call
of `backward`: the value it had plus what the closure of the root adds. -/
theorem gradAt_backward_direct {n : Nodes α} {root x : Addr} (hv : ValidRefs n)
    (hr : root < n.length) (ha : Acyclic n) (hc : ∀ w, Reachable n root w → Coherent n w)
    (hne : x ≠ root) (hcons : ∀ w, Reachable n root w → Operand n w x → w = root) :
    ∃ n1, backwardNodes n root = some n1 ∧ SameShape n n1 ∧
      gradAt n1 x = gradAt n x + contrib n (ruleAt n root) 1 x := by
  obtain ⟨order, ho, hnd, hmem, ⟨rest, hrest⟩, -, -⟩ := topoOrder_spec hv hr ha
  have hs0 : SameShape n (setGrad n root 1) := sameShape_setGrad (sameShape_refl n) root 1
  refine ⟨_, topoOrder_backwardNodes ho, sameShape_replay hs0 _, ?_⟩
  subst hrest
  have hroot : Reachable n root root := Relation.ReflTransGen.refl
  have hrest' : ∀ w ∈ rest, Coherent n w ∧ ¬ Operand n w x := by
    intro w hw
    have hrw : Reachable n root w := (hmem w).1 (List.mem_cons_of_mem _ hw)
    refine ⟨hc w hrw, fun hop => ?_⟩
    have := hcons w hrw hop
    subst this
    exact (List.nodup_cons.1 hnd).1 hw
  show gradAt (replay (runRule (setGrad n root 1) (ruleAt (setGrad n root 1) root)) rest) x = _
  rw [gradAt_replay_frame hv ha rest _ (sameShape_runRule hs0 _) hrest',
    gradAt_step hs0 (hc root hroot) hv (not_operand_self ha root), gradAt_setGrad n hr,
    gradAt_setGrad n hr, if_neg hne, if_pos rfl]

end Gradients
section Polynomial
variable {α : Type} [Field α]

theorem ruleAt_of_le (n : Nodes α) {p : Addr} (h : n.length ≤ p) : ruleAt n p = Rule.nop := by
  unfold ruleAt; rw [nodeAt_of_le n h]; rfl

theorem operand_lt_length {n : Nodes α} {v c : Addr} (h : Operand n v c) : v < n.length := by
  by_contra hlt
  unfold Operand at h
  rw [prevAt_of_le n (not_lt.1 hlt)] at h
  exact List.not_mem_nil _ h

theorem acyclic_of_operand_lt {n : Nodes α} (h : ∀ v c, Operand n v c → c < v) : Acyclic n := by
  have key : ∀ a b, Relation.TransGen (Operand n) a b → b < a := by
    intro a b hab
    induction hab with
    | single h1 => exact h _ _ h1
    | tail _ h2 ih => exact lt_trans (h _ _ h2) ih
  exact fun v hv => lt_irrefl v (key v v hv)

theorem validRefs_of_operand_lt {n : Nodes α} (h : ∀ v c, Operand n v c → c < v) :
    ValidRefs n := fun v c hc => lt_trans (h v c hc) (operand_lt_length hc)

theorem PolyGraph.operand_lt {n : Nodes α} (hp : PolyGraph n) {v c : Addr}
    (h : Operand n v c) : c < v := by
  have hn := hp v (operand_lt_length h)
  unfold PolyNode at hn
  unfold Operand at h
  cases hr : ruleAt n v <;> rw [hr] at hn
  · rw [hn] at h; exact absurd h (List.not_mem_nil _)
  · obtain ⟨_, hpv, ha, hb, _⟩ := hn
    rw [hpv] at h
    simp only [List.mem_cons, List.mem_singleton, List.not_mem_nil, or_false] at h
    rcases h with rfl | rfl <;> assumption
  · obtain ⟨_, hpv, ha, hb, _⟩ := hn
    rw [hpv] at h
    simp only [List.mem_cons, List.mem_singleton, List.not_mem_nil, or_false] at h
    rcases h with rfl | rfl <;> assumption
  all_goals exact hn.elim

theorem PolyGraph.acyclic {n : Nodes α} (hp : PolyGraph n) : Acyclic n :=
  acyclic_of_operand_lt (fun _ _ h => hp.operand_lt h)

theorem PolyGraph.validRefs {n : Nodes α} (hp : PolyGraph n) : ValidRefs n :=
  validRefs_of_operand_lt (fun _ _ h => hp.operand_lt h)

theorem PolyGraph.coherent {n : Nodes α} (hp : PolyGraph n) (v : Addr) : Coherent n v := by
  unfold Coherent
  by_cases hlt : v < n.length
  · have hn := hp v hlt
    unfold PolyNode at hn
    cases hr : ruleAt n v <;> rw [hr] at hn
    · exact hn
    · exact ⟨hn.1, hn.2.1⟩
    · exact ⟨hn.1, hn.2.1⟩
    all_goals exact hn.elim
  · rw [ruleAt_of_le n (not_lt.1 hlt)]
    exact prevAt_of_le n (not_lt.1 hlt)

/-- The shape of an object of a polynomial graph. -/
theorem PolyGraph.cases {n : Nodes α} (hp : PolyGraph n) (v : Addr) :
    (ruleAt n v = Rule.nop ∧ prevAt n v = []) ∨
    (∃ a b, ruleAt n v = Rule.add a b v ∧ prevAt n v = [a, b] ∧ a < v ∧ b < v ∧
      dataAt n v = dataAt n a + dataAt n b) ∨
    (∃ a b, ruleAt n v = Rule.mul a b v ∧ prevAt n v = [a, b] ∧ a < v ∧ b < v ∧
      dataAt n v = dataAt n a * dataAt n b) := by
  by_cases hlt : v < n.length
  · have hn := hp v hlt
    unfold PolyNode at hn
    cases hr : ruleAt n v <;> rw [hr] at hn
    · exact Or.inl ⟨rfl, hn⟩
    · obtain ⟨rfl, h⟩ := hn
      exact Or.inr (Or.inl ⟨_, _, rfl, h⟩)
    · obtain ⟨rfl, h⟩ := hn
      exact Or.inr (Or.inr ⟨_, _, rfl, h⟩)
    all_goals exact hn.elim
  · exact Or.inl ⟨ruleAt_of_le n (not_lt.1 hlt), prevAt_of_le n (not_lt.1 hlt)⟩

theorem TopoList.tail {n : Nodes α} (ha : Acyclic n) {w : Addr} {rest : List Addr}
    (h : TopoList n (w :: rest)) : TopoList n rest ∧ ∀ c, Operand n w c → c ∈ rest := by
  have hnd := List.nodup_cons.1 h.nodup
  have hpw := List.pairwise_cons.1 h.sorted
  refine ⟨⟨hnd.2, hpw.2, ?_⟩, ?_⟩
  · intro u hu c hc
    rcases List.mem_cons.1 (h.closed u (List.mem_cons_of_mem _ hu) c hc) with h1 | h1
    · subst h1
      exact absurd hc (hpw.1 u hu)
    · exact h1
  · intro c hc
    rcases List.mem_cons.1 (h.closed w (List.mem_cons_self _ _) c hc) with h1 | h1
    · subst h1
      exact absurd hc (not_operand_self ha c)
    · exact h1

end Polynomial

section Derivative
variable {𝕜 : Type} [NontriviallyNormedField 𝕜]

end Derivative

section Construction
variable {α : Type} [Field α]

theorem nodeAt_append_left (n l : Nodes α) {p : Addr} (h : p < n.length) :
    nodeAt (n ++ l) p = nodeAt n p := by
  unfold nodeAt; exact List.getD_append _ _ _ _ h

theorem nodeAt_append_new (n : Nodes α) (v : Value α) : nodeAt (n ++ [v]) n.length = v := by
  unfold nodeAt
  rw [List.getD_append_right _ _ _ _ (le_refl _)]
  simp

theorem PolyNode.append {n : Nodes α} {v : Addr} (h : PolyNode n v) (hv : v < n.length)
    (l : Nodes α) : PolyNode (n ++ l) v := by
  have hd : ∀ a : Addr, a < v → dataAt (n ++ l) a = dataAt n a := fun a ha => by
    unfold dataAt; rw [nodeAt_append_left n l (lt_trans ha hv)]
  unfold PolyNode at h ⊢
  unfold ruleAt prevAt dataAt at h ⊢
  rw [nodeAt_append_left n l hv]
  cases hr : (nodeAt n v)._backward <;> rw [hr] at h <;> simp only at h ⊢
  · exact h
  · obtain ⟨h1, h2, h3, h4, h5⟩ := h
    exact ⟨h1, h2, h3, h4, by
      rw [show (nodeAt (n ++ l) _).data = dataAt (n ++ l) _ from rfl, hd _ h3,
        show (nodeAt (n ++ l) _).data = dataAt (n ++ l) _ from rfl, hd _ h4]; exact h5⟩
  · obtain ⟨h1, h2, h3, h4, h5⟩ := h
    exact ⟨h1, h2, h3, h4, by
      rw [show (nodeAt (n ++ l) _).data = dataAt (n ++ l) _ from rfl, hd _ h3,
        show (nodeAt (n ++ l) _).data = dataAt (n ++ l) _ from rfl, hd _ h4]; exact h5⟩

theorem polyGraph_snoc {n : Nodes α} (hp : PolyGraph n) (v : Value α)
    (hv : PolyNode (n ++ [v]) n.length) : PolyGraph (n ++ [v]) := by
  intro p hlt
  rw [List.length_append, List.length_singleton] at hlt
  rcases Nat.lt_succ_iff_lt_or_eq.1 hlt with h | h
  · exact (hp p h).append h _
  · rw [h]; exact hv

theorem zeroGrads_snoc {n : Nodes α} (h0 : ZeroGrads n) (v : Value α) (hv : v.grad = 0) :
    ZeroGrads (n ++ [v]) := by
  intro u hu
  rcases List.mem_append.1 hu with h | h
  · exact h0 u h
  · rw [List.mem_singleton] at h; rw [h]; exact hv

theorem polyNode_new_add (n : Nodes α) {a b : Addr} (ha : a < n.length) (hb : b < n.length)
    (v : Value α) (hr : v._backward = Rule.add a b n.length) (hp : v._prev = [a, b])
    (hd : v.data = dataAt n a + dataAt n b) : PolyNode (n ++ [v]) n.length := by
  unfold PolyNode ruleAt prevAt
  rw [nodeAt_append_new, hr]
  refine ⟨rfl, hp, ha, hb, ?_⟩
  unfold dataAt
  rw [nodeAt_append_new, nodeAt_append_left _ _ ha, nodeAt_append_left _ _ hb]
  exact hd

theorem polyNode_new_mul (n : Nodes α) {a b : Addr} (ha : a < n.length) (hb : b < n.length)
    (v : Value α) (hr : v._backward = Rule.mul a b n.length) (hp : v._prev = [a, b])
    (hd : v.data = dataAt n a * dataAt n b) : PolyNode (n ++ [v]) n.length := by
  unfold PolyNode ruleAt prevAt
  rw [nodeAt_append_new, hr]
  refine ⟨rfl, hp, ha, hb, ?_⟩
  unfold dataAt
  rw [nodeAt_append_new, nodeAt_append_left _ _ ha, nodeAt_append_left _ _ hb]
  exact hd

/-- What leaves, `operator+` and `operator*` build is a graph of leaves,
sums and products in which every `grad` is 0. -/
theorem Built.polyGraph {s : State α} (h : Built s) : PolyGraph s.nodes ∧ ZeroGrads s.nodes := by
  induction h with
  | init =>
    exact ⟨fun v hv => absurd hv (Nat.not_lt_zero _), fun v hv => absurd hv (List.not_mem_nil _)⟩
  | @leaf s data label _ ih =>
    refine ⟨polyGraph_snoc ih.1 _ ?_, zeroGrads_snoc ih.2 _ rfl⟩
    unfold PolyNode ruleAt prevAt
    rw [nodeAt_append_new]
    rfl
  | @add s a b _ ha hb ih =>
    exact ⟨polyGraph_snoc ih.1 _ (polyNode_new_add s.nodes ha hb _ rfl rfl rfl),
      zeroGrads_snoc ih.2 _ rfl⟩
  | @mul s a b _ ha hb ih =>
    exact ⟨polyGraph_snoc ih.1 _ (polyNode_new_mul s.nodes ha hb _ rfl rfl rfl),
      zeroGrads_snoc ih.2 _ rfl⟩

end Construction

section Scenario
variable {α : Type} [Field α]

/-- C1: for leaves `a`, `b`, `c`, after `f = a*b + c` and `backward` on `f`,
`f` holds `a*b + c` and the `grad`s of `a`, `b`, `c` are `b`, `a` and 1
(the cells of `a`, `b`, `c`, `a*b`, `f` are 0, 1, 2, 3, 4). -/
theorem mul_add_backward (a b c : α) (la lb lc : String) :
    (mulAdd a b c la lb lc).2 = (0, 1, 2, 3, 4) ∧
    (backward (mulAdd a b c la lb lc).1 4).map (fun s =>
      (dataAt s.nodes 4, gradAt s.nodes 0, gradAt s.nodes 1, gradAt s.nodes 2)) =
        some (a * b + c, b, a, 1) := by
  have ho : topoOrder (mulAdd a b c la lb lc).1.nodes 4 = some [4, 2, 3, 1, 0] := rfl
  refine ⟨rfl, ?_⟩
  rw [topoOrder_backward _ rfl ho]
  simp [mulAdd, mkValue, alloc, add, mul, State.init, replay, runRule, ruleAt,
    nodeAt, Value.mk4, setGrad, addGrad, dataAt, gradAt, labelAt, List.modify, List.modifyHead]

/-- C2: for leaves `a`, `b`, after `s = a + b`, `d = s * s` (one object `s`
as both operands) and `backward` on `d`: `s` is scheduled once, `d` holds
`(a+b)^2`, and the `grad`s of `a`, `b` and `s` are all `2*(a+b)` (the cells
of `a`, `b`, `s`, `d` are 0, 1, 2, 3). -/
theorem diamond_backward (a b : α) (la lb : String) :
    (diamond a b la lb).2 = (0, 1, 2, 3) ∧
    prevAt (diamond a b la lb).1.nodes 3 = [2, 2] ∧
    topoOrder (diamond a b la lb).1.nodes 3 = some [3, 2, 1, 0] ∧
    (backward (diamond a b la lb).1 3).map (fun t =>
      (dataAt t.nodes 3, gradAt t.nodes 0, gradAt t.nodes 1, gradAt t.nodes 2)) =
        some ((a + b) ^ 2, 2 * (a + b), 2 * (a + b), 2 * (a + b)) := by
  have ho : topoOrder (diamond a b la lb).1.nodes 3 = some [3, 2, 1, 0] := rfl
  refine ⟨rfl, rfl, ho, ?_⟩
  rw [topoOrder_backward _ rfl ho]
  simp [diamond, mkValue, alloc, add, mul, State.init, replay, runRule, ruleAt,
    nodeAt, Value.mk4, setGrad, addGrad, dataAt, gradAt, labelAt, List.modify, List.modifyHead]
  constructor <;> ring

end Scenario

section Polynomial
variable {𝕜 : Type} [NontriviallyNormedField 𝕜]

theorem mulAddState_built : Built mulAddState :=
  Built.add 3 2 (Built.mul 0 1 (Built.leaf 10 "c" (Built.leaf (-3) "b"
    (Built.leaf 2 "a" Built.init))) (by decide) (by decide)) (by decide) (by decide)

end Polynomial

section Order
variable {α : Type} [Field α]

theorem replay_append (m : Nodes α) (l1 l2 : List Addr) :
    replay m (l1 ++ l2) = replay (replay m l1) l2 := by
  unfold replay
  rw [List.foldl_append]

/-- Once the closure of `w` has been called, the closures of objects that do
not have `w` as an operand leave `w->grad` alone. -/
theorem gradAt_replay_own {n : Nodes α} (hv : ValidRefs n) (ha : Acyclic n) {w : Addr}
    (rest : List Addr) (m : Nodes α) (hs : SameShape n m) (hcw : Coherent n w)
    (hrest : ∀ u ∈ rest, Coherent n u ∧ ¬ Operand n u w) :
    gradAt (replay m (w :: rest)) w = gradAt m w := by
  show gradAt (replay (runRule m (ruleAt m w)) rest) w = _
  rw [gradAt_replay_frame hv ha rest _ (sameShape_runRule hs _) hrest,
    gradAt_step hs hcw hv (not_operand_self ha w),
    contrib_eq_zero hcw (not_operand_self ha w), add_zero]

/-- C4: on an acyclic operand graph, the sequence that `backward` replays is
found, lists exactly the objects reachable from the root, each once, starts
with the root, and lists every object before each of its operands; the
closures are called along this sequence, one call per entry. When the
closures are those the operators attached, the `grad` of an object is final
when its own closure is called (the closures called before are all that
write it), and the `grad` every object ends with is the seed or the `grad`
it had plus, once for each object of the sequence, what that object's
closure adds on reading the final `grad` of its object. -/
theorem backward_order_reverse_postorder (n : Nodes α) (root : Addr) (hv : ValidRefs n)
    (hr : root < n.length) (ha : Acyclic n) :
    ∃ order, topoOrder n root = some order ∧
      backwardNodes n root = some (replay (setGrad n root 1) order) ∧
      order.Nodup ∧ (∀ v, v ∈ order ↔ Reachable n root v) ∧
      order.head? = some root ∧
      (∀ v ∈ order, ∀ c, Operand n v c → c ∈ order ∧ order.indexOf v < order.indexOf c) ∧
      ((∀ w, Reachable n root w → Coherent n w) →
        ∃ m, backwardNodes n root = some m ∧
          (∀ w ∈ order,
            gradAt (replay (setGrad n root 1) (order.take (order.indexOf w))) w = gradAt m w) ∧
          ∀ x, gradAt m x = (if x = root then 1 else gradAt n x) +
            (order.map (fun w => contrib n (ruleAt n w) (gradAt m w) x)).sum) := by
  obtain ⟨order, ho, hnd, hmem, ⟨rest, hrest⟩, hcl, hpw⟩ := topoOrder_spec hv hr ha
  refine ⟨order, ho, topoOrder_backwardNodes ho, hnd, hmem, by rw [hrest]; rfl, ?_, ?_⟩
  · intro v hm c hc
    refine ⟨hcl v hm c hc, ?_⟩
    rcases lt_trichotomy (order.indexOf v) (order.indexOf c) with h | h | h
    · exact h
    · have := (List.indexOf_inj hm (hcl v hm c hc)).1 h
      subst this
      exact absurd hc (not_operand_self ha v)
    · exact absurd hc (pairwise_of_indexOf_lt hpw hm h)
  · intro hco
    have hs0 : SameShape n (setGrad n root 1) := sameShape_setGrad (sameShape_refl n) root 1
    have hcoh : ∀ w ∈ order, Coherent n w := fun w hw => hco w ((hmem w).1 hw)
    have hsum : ∀ (l : List Addr) (m : Nodes α), SameShape n m →
        l.Pairwise (fun x y => ¬ Operand n y x) → (∀ w ∈ l, Coherent n w) → ∀ x,
        gradAt (replay m l) x = gradAt m x +
          (l.map (fun w => contrib n (ruleAt n w) (gradAt (replay m l) w) x)).sum := by
      intro l
      induction l with
      | nil => intro m _ _ _ x; simp [replay]
      | cons w rest ih =>
        intro m hs hpw1 hc x
        have hpw2 := List.pairwise_cons.1 hpw1
        have hcw : Coherent n w := hc w (List.mem_cons_self _ _)
        have hrest : ∀ u ∈ rest, Coherent n u ∧ ¬ Operand n u w := fun u hu =>
          ⟨hc u (List.mem_cons_of_mem _ hu), hpw2.1 u hu⟩
        have hown := gradAt_replay_own hv ha rest m hs hcw hrest
        have hstep := gradAt_step hs hcw hv (not_operand_self ha w) x
        have hih := ih (runRule m (ruleAt m w)) (sameShape_runRule hs _) hpw2.2
          (fun u hu => hc u (List.mem_cons_of_mem _ hu)) x
        rw [List.map_cons, List.sum_cons, hown]
        show gradAt (replay (runRule m (ruleAt m w)) rest) x =
          gradAt m x + (contrib n (ruleAt n w) (gradAt m w) x +
            (rest.map (fun u => contrib n (ruleAt n u)
              (gradAt (replay (runRule m (ruleAt m w)) rest) u) x)).sum)
        rw [hih, hstep, add_assoc]
    refine ⟨_, topoOrder_backwardNodes ho, ?_, ?_⟩
    · intro w hw
      have hi : order.indexOf w < order.length := List.indexOf_lt_length.2 hw
      have hsplit : order =
          order.take (order.indexOf w) ++ w :: order.drop (order.indexOf w + 1) := by
        conv_lhs => rw [← List.take_append_drop (order.indexOf w) order,
          List.drop_eq_getElem_cons hi, List.getElem_indexOf]
      have hpw2 : (order.take (order.indexOf w) ++
          w :: order.drop (order.indexOf w + 1)).Pairwise (fun x y => ¬ Operand n y x) := by
        rw [← hsplit]; exact hpw
      have hpw3 := List.pairwise_cons.1 (List.pairwise_append.1 hpw2).2.1
      have hafter : ∀ u ∈ order.drop (order.indexOf w + 1), Coherent n u ∧ ¬ Operand n u w :=
        fun u hu => ⟨hcoh u (List.mem_of_mem_drop hu), hpw3.1 u hu⟩
      have hown := gradAt_replay_own hv ha _ (replay (setGrad n root 1)
        (order.take (order.indexOf w))) (sameShape_replay hs0 _) (hcoh w hw) hafter
      rw [← replay_append, ← hsplit] at hown
      exact hown.symm
    · intro x
      rw [hsum order _ hs0 hpw hcoh x, gradAt_setGrad n hr]

end Order

section Accumulation

theorem backward_order_reverse_postorder_witness :
    ValidRefs mulAddState.nodes ∧ 4 < mulAddState.nodes.length ∧ Acyclic mulAddState.nodes ∧
    (∀ w, Reachable mulAddState.nodes 4 w → Coherent mulAddState.nodes w) ∧
    ∃ order, topoOrder mulAddState.nodes 4 = some order ∧
      backwardNodes mulAddState.nodes 4 =
        some (replay (setGrad mulAddState.nodes 4 1) order) ∧
      order.Nodup ∧ (∀ v, v ∈ order ↔ Reachable mulAddState.nodes 4 v) ∧
      order.head? = some 4 ∧
      (∀ v ∈ order, ∀ c, Operand mulAddState.nodes v c →
        c ∈ order ∧ order.indexOf v < order.indexOf c) ∧
      ∃ m, backwardNodes mulAddState.nodes 4 = some m ∧
        (∀ w ∈ order,
          gradAt (replay (setGrad mulAddState.nodes 4 1)
            (order.take (order.indexOf w))) w = gradAt m w) ∧
        (∀ x, gradAt m x = (if x = 4 then 1 else gradAt mulAddState.nodes x) +
          (order.map (fun w => contrib mulAddState.nodes (ruleAt mulAddState.nodes w)
            (gradAt m w) x)).sum) ∧
        topoOrder mulAddState.nodes 4 = some [4, 2, 3, 1, 0] ∧
        (gradAt m 4, gradAt m 3, gradAt m 2, gradAt m 1, gradAt m 0) = (1, 1, 1, 2, -3) := by
  have ho : topoOrder mulAddState.nodes 4 = some [4, 2, 3, 1, 0] := by decide
  have hg : (backwardNodes mulAddState.nodes 4).map (fun m =>
      (gradAt m 4, gradAt m 3, gradAt m 2, gradAt m 1, gradAt m 0)) =
      some (1, 1, 1, 2, -3) := by
    rw [topoOrder_backwardNodes ho]
    simp [mulAddState, mulAdd, mkValue, alloc, add, mul, State.init, replay, runRule, ruleAt,
      nodeAt, Value.mk4, setGrad, addGrad, dataAt, gradAt, labelAt, List.modify,
      List.modifyHead]
  refine ⟨mulAddState_built.polyGraph.1.validRefs, by decide,
    mulAddState_built.polyGraph.1.acyclic,
    fun w _ => mulAddState_built.polyGraph.1.coherent w, ?_⟩
  obtain ⟨order, h1, h2, h3, h4, h5, h6, h7⟩ :=
    backward_order_reverse_postorder mulAddState.nodes 4
      mulAddState_built.polyGraph.1.validRefs (by decide)
      mulAddState_built.polyGraph.1.acyclic
  obtain ⟨m, hm, h8, h9⟩ := h7 (fun w _ => mulAddState_built.polyGraph.1.coherent w)
  refine ⟨order, h1, h2, h3, h4, h5, h6, m, hm, h8, h9, ho, ?_⟩
  rw [hm] at hg
  exact Option.some.inj hg

theorem mulAddState_consumers_of_c :
    ∀ w, Reachable mulAddState.nodes 4 w → Operand mulAddState.nodes w 2 → w = 4 := by
  intro w _ hop
  have hlt : w < 5 := operand_lt_length hop
  interval_cases w
  · exact absurd hop (by decide)
  · exact absurd hop (by decide)
  · exact absurd hop (by decide)
  · exact absurd hop (by decide)
  · rfl

theorem mulAddState_capturesLive (w : Addr) : CapturesLive (ruleAt mulAddState.nodes w) := by
  by_cases hw : w < 5
  · interval_cases w <;> exact trivial
  · rw [ruleAt_of_le _ (not_lt.1 hw)]
    exact trivial

/-- C5 as stated fails: in `f = a*b + c` with `a = 2`, `b = -3`, `c = 10`,
all `grad`s 0 at the start, the leaf `a` is reachable from `f`; after one
`backward` on `f` its `grad` is `-3`, after the second it is `-9`, not
`-6`. -/
theorem backward_twice_counterexample :
    Acyclic mulAddState.nodes ∧ ZeroGrads mulAddState.nodes ∧
    prevAt mulAddState.nodes 0 = [] ∧ Reachable mulAddState.nodes 4 0 ∧
    ∃ n1 n2, backwardNodes mulAddState.nodes 4 = some n1 ∧ backwardNodes n1 4 = some n2 ∧
      gradAt n1 0 = -3 ∧ gradAt n2 0 = -9 ∧ gradAt n2 0 ≠ 2 * gradAt n1 0 := by
  have ho : topoOrder mulAddState.nodes 4 = some [4, 2, 3, 1, 0] := by decide
  have hs : SameShape mulAddState.nodes (replay (setGrad mulAddState.nodes 4 1) [4, 2, 3, 1, 0]) :=
    sameShape_replay (sameShape_setGrad (sameShape_refl _) _ _) _
  have ho2 : topoOrder (replay (setGrad mulAddState.nodes 4 1) [4, 2, 3, 1, 0]) 4 =
      some [4, 2, 3, 1, 0] := by rw [topoOrder_congr hs, ho]
  have h43 : Operand mulAddState.nodes 4 3 := by decide
  have h30 : Operand mulAddState.nodes 3 0 := by decide
  refine ⟨mulAddState_built.polyGraph.1.acyclic, mulAddState_built.polyGraph.2, rfl,
    Relation.ReflTransGen.tail (Relation.ReflTransGen.single h43) h30,
    _, _, topoOrder_backwardNodes ho, topoOrder_backwardNodes ho2, ?_⟩
  simp [mulAddState, mulAdd, mkValue, alloc, add, mul, State.init, replay, runRule, ruleAt,
    nodeAt, Value.mk4, setGrad, addGrad, dataAt, gradAt, labelAt, List.modify, List.modifyHead]
  norm_num

end Accumulation

section Doubling
variable {α : Type} [Field α]

/-- C5 (amended): on an acyclic graph whose objects reachable from the
root are leaves or results of `operator+`, `operator*` or `exp_` (the
closures that read live objects only), an object other than the root whose
only consumer reachable from the root is the root itself, and whose `grad`
is 0 at the start, holds after one call of `backward` on that root what the
closure of the root adds to it for `out.grad = 1`, and after the second of
two calls exactly twice the `grad` it held after the first. -/
theorem backward_twice_direct_operand (n : Nodes α) (root x : Addr) (hv : ValidRefs n)
    (hr : root < n.length) (ha : Acyclic n) (hc : ∀ w, Reachable n root w → Coherent n w)
    (hl : ∀ w, Reachable n root w → CapturesLive (ruleAt n w))
    (h0 : gradAt n x = 0) (hne : x ≠ root)
    (hcons : ∀ w, Reachable n root w → Operand n w x → w = root) :
    ∃ n1 n2, backwardNodes n root = some n1 ∧ backwardNodes n1 root = some n2 ∧
      gradAt n1 x = contrib n (ruleAt n root) 1 x ∧
      gradAt n2 x = 2 * gradAt n1 x := by
  have _ := hl
  obtain ⟨n1, hb1, hs1, hg1⟩ := gradAt_backward_direct hv hr ha hc hne hcons
  have hreach : ∀ w, Reachable n1 root w ↔ Reachable n root w := by
    intro w
    have hop : Operand n1 = Operand n := by
      funext a b; exact propext (operand_congr hs1)
    unfold Reachable; rw [hop]
  have ha1 : Acyclic n1 := by
    intro v h
    have hop : Operand n1 = Operand n := by
      funext a b; exact propext (operand_congr hs1)
    rw [hop] at h
    exact ha v h
  obtain ⟨n2, hb2, -, hg2⟩ := gradAt_backward_direct (validRefs_congr hs1 hv)
    (by rw [hs1.length_eq]; exact hr) ha1
    (fun w hw => coherent_congr hs1 (hc w ((hreach w).1 hw))) hne
    (fun w hw hop => hcons w ((hreach w).1 hw) ((operand_congr hs1).1 hop))
  refine ⟨n1, n2, hb1, hb2, by rw [hg1, h0, zero_add], ?_⟩
  rw [hg2, contrib_congr hs1, hs1.ruleAt_eq, hg1, h0]
  ring

end Doubling

section DoublingWitness

theorem backward_twice_direct_operand_witness :
    ValidRefs mulAddState.nodes ∧ 4 < mulAddState.nodes.length ∧ Acyclic mulAddState.nodes ∧
    (∀ w, Reachable mulAddState.nodes 4 w → Coherent mulAddState.nodes w) ∧
    (∀ w, Reachable mulAddState.nodes 4 w → CapturesLive (ruleAt mulAddState.nodes w)) ∧
    gradAt mulAddState.nodes 2 = 0 ∧ (2 : Addr) ≠ 4 ∧
    (∀ w, Reachable mulAddState.nodes 4 w → Operand mulAddState.nodes w 2 → w = 4) ∧
    ∃ n1 n2, backwardNodes mulAddState.nodes 4 = some n1 ∧ backwardNodes n1 4 = some n2 ∧
      gradAt n1 2 = contrib mulAddState.nodes (ruleAt mulAddState.nodes 4) 1 2 ∧
      gradAt n2 2 = 2 * gradAt n1 2 ∧ gradAt n1 2 = 1 ∧ gradAt n2 2 = 2 := by
  obtain ⟨n1, n2, h1, h2, h3, h4⟩ := backward_twice_direct_operand mulAddState.nodes 4 2
      mulAddState_built.polyGraph.1.validRefs (by decide)
      mulAddState_built.polyGraph.1.acyclic
      (fun w _ => mulAddState_built.polyGraph.1.coherent w)
      (fun w _ => mulAddState_capturesLive w) rfl (by decide)
      mulAddState_consumers_of_c
  have ho : topoOrder mulAddState.nodes 4 = some [4, 2, 3, 1, 0] := by decide
  have hg : (backwardNodes mulAddState.nodes 4).map (fun m => gradAt m 2) = some 1 := by
    rw [topoOrder_backwardNodes ho]
    simp [mulAddState, mulAdd, mkValue, alloc, add, mul, State.init, replay, runRule, ruleAt,
      nodeAt, Value.mk4, setGrad, addGrad, dataAt, gradAt, labelAt, List.modify,
      List.modifyHead]
  rw [h1] at hg
  have hg1 : gradAt n1 2 = 1 := Option.some.inj hg
  exact ⟨mulAddState_built.polyGraph.1.validRefs, by decide,
    mulAddState_built.polyGraph.1.acyclic,
    fun w _ => mulAddState_built.polyGraph.1.coherent w,
    fun w _ => mulAddState_capturesLive w, rfl, by decide,
    mulAddState_consumers_of_c, n1, n2, h1, h2, h3, h4, hg1, by rw [h4, hg1]; norm_num⟩

end DoublingWitness

section Defects

/-- The expression the closure of `pow_` evaluates at `out.data = 4` and
`out.grad = 1` is never the `4` of the power rule at `a = 2`, `k = 2`. -/
theorem pow_rule_unreachable (k : Int) :
    (k : ℚ) * 4 ^ (k - 1) ≠ 2 * 2 ^ ((2 : ℤ) - 1) := by
  have h4 : (2 : ℚ) * 2 ^ ((2 : ℤ) - 1) = 4 := by norm_num
  rw [h4]
  rcases le_or_lt k 0 with h | h
  · have hp : (0 : ℚ) < 4 ^ (k - 1) := zpow_pos (by norm_num) _
    have hk : (k : ℚ) ≤ 0 := by exact_mod_cast h
    have hle : (k : ℚ) * 4 ^ (k - 1) ≤ 0 := mul_nonpos_of_nonpos_of_nonneg hk hp.le
    linarith
  · rcases eq_or_lt_of_le (Int.add_one_le_iff.2 h) with h1 | h1
    · have hk : k = 1 := by omega
      subst hk
      norm_num
    · obtain ⟨m, rfl⟩ : ∃ m : ℕ, k = m + 2 := ⟨(k - 2).toNat, by omega⟩
      have he : ((m : ℤ) + 2 - 1) = ((m + 1 : ℕ) : ℤ) := by push_cast; ring
      rw [he, zpow_natCast]
      have h1 : (4 : ℚ) ^ 1 ≤ 4 ^ (m + 1) := pow_le_pow_right₀ (by norm_num) (by omega)
      have hm : (0 : ℚ) ≤ m := Nat.cast_nonneg m
      push_cast
      nlinarith

/-- C6: with `a = 2` and `k = 2` (cells: `a` 0, `out` 1), `out = a.pow_(k)`
holds `4`. The closure computes `k * pow(out.data, k - 1) * out.grad`: it has
the value `4` of `out` where the power rule has the value `2` of `a`, and it
reads `k` through a reference to the parameter of the call that built it.
Whatever value `kRead` that read yields, `backward` on `out` leaves
`kRead * 4^(kRead - 1)` in `a.grad`, which is the `k * a.value^(k-1) = 4` of
the power rule for no integer `kRead`; were the read to yield `2`, the `k` of
the call, it would be `8`. -/
theorem pow_backward_reads_out_data (kRead : Int) :
    (powScene (2 : ℚ) 2 kRead "a").2 = (0, 1) ∧
    ruleAt (powScene (2 : ℚ) 2 kRead "a").1.nodes 1 = Rule.pow 0 kRead 1 ∧
    (backward (powScene (2 : ℚ) 2 kRead "a").1 1).map (fun s =>
      (dataAt s.nodes 1, gradAt s.nodes 0)) = some (4, (kRead : ℚ) * 4 ^ (kRead - 1)) ∧
    (kRead : ℚ) * 4 ^ (kRead - 1) ≠ 2 * 2 ^ ((2 : ℤ) - 1) ∧
    (backward (powScene (2 : ℚ) 2 2 "a").1 1).map (fun s => gradAt s.nodes 0) = some 8 := by
  have ho : topoOrder (powScene (2 : ℚ) 2 kRead "a").1.nodes 1 = some [1, 0] := rfl
  have ho2 : topoOrder (powScene (2 : ℚ) 2 2 "a").1.nodes 1 = some [1, 0] := rfl
  refine ⟨rfl, rfl, ?_, pow_rule_unreachable kRead, ?_⟩
  · rw [topoOrder_backward _ rfl ho]
    simp [powScene, pow_, mkValue, alloc, State.init, replay, runRule, ruleAt, nodeAt, Value.mk4,
      setGrad, addGrad, dataAt, gradAt, labelAt, List.modify, List.modifyHead]
    norm_num
  · rw [topoOrder_backward _ rfl ho2]
    simp [powScene, pow_, mkValue, alloc, State.init, replay, runRule, ruleAt, nodeAt, Value.mk4,
      setGrad, addGrad, dataAt, gradAt, labelAt, List.modify, List.modifyHead]
    norm_num

/-- C7: with `a = 2` labelled `"a"` (cells: `a` 0, `out` 1), evaluating `-a`
returns a new object holding `-2`, and afterwards `a` itself holds `-2` and
is labelled `"-a"`. -/
theorem neg_mutates_operand :
    (negScene (2 : ℚ) "a").2 = (0, 1) ∧
    dataAt (mkValue (State.init ℚ) 2 "a").1.nodes 0 = 2 ∧
    labelAt (mkValue (State.init ℚ) 2 "a").1.nodes 0 = "a" ∧
    dataAt (negScene (2 : ℚ) "a").1.nodes 1 = -2 ∧
    dataAt (negScene (2 : ℚ) "a").1.nodes 0 = -2 ∧
    labelAt (negScene (2 : ℚ) "a").1.nodes 0 = "-a" := by
  refine ⟨rfl, rfl, rfl, ?_, ?_, by decide⟩ <;>
    simp [negScene, neg, mkValue, alloc, State.init, nodeAt, Value.mk4, dataAt, List.modify,
      List.modifyHead]

/-- C8: with `a = 2` (cells: `a` 0, `out` 1), the object `out = -a` records
no operand and carries the empty closure, and `backward` on `out` sets
`out.grad` to `1` and leaves `a.grad` at `0`. -/
theorem neg_has_no_backward_rule :
    (negScene (2 : ℚ) "a").2 = (0, 1) ∧
    prevAt (negScene (2 : ℚ) "a").1.nodes 1 = [] ∧
    ruleAt (negScene (2 : ℚ) "a").1.nodes 1 = Rule.nop ∧
    (backward (negScene (2 : ℚ) "a").1 1).map (fun s =>
      (gradAt s.nodes 1, gradAt s.nodes 0)) = some (1, 0) := by
  have ho : topoOrder (negScene (2 : ℚ) "a").1.nodes 1 = some [1] := by decide
  refine ⟨rfl, rfl, rfl, ?_⟩
  rw [topoOrder_backward _ rfl ho]
  simp [negScene, neg, mkValue, alloc, State.init, replay, runRule, ruleAt, nodeAt, Value.mk4,
    setGrad, addGrad, dataAt, gradAt, labelAt, List.modify, List.modifyHead]

/-- C9: the driver, `a = 2`, `b = 4`, `c = a - b` (cells: `a` 0, `b` 1, the
static `neg_other` 2, `c` 3): `c` holds `-2` and its operands are `a` and
`neg_other`, not `b`; `b` itself now holds `-4`; `backward` on `c` leaves `1`
in `a.grad` and `0` in `b.grad`. -/
theorem sub_backward_misses_subtrahend :
    (subScene (2 : ℚ) 4 "a" "b").2 = (0, 1, 3) ∧
    (subScene (2 : ℚ) 4 "a" "b").1.sub_neg_other = some 2 ∧
    dataAt (subScene (2 : ℚ) 4 "a" "b").1.nodes 3 = -2 ∧
    prevAt (subScene (2 : ℚ) 4 "a" "b").1.nodes 3 = [0, 2] ∧
    dataAt (subScene (2 : ℚ) 4 "a" "b").1.nodes 1 = -4 ∧
    (backward (subScene (2 : ℚ) 4 "a" "b").1 3).map (fun s =>
      (gradAt s.nodes 0, gradAt s.nodes 1)) = some (1, 0) := by
  have ho : topoOrder (subScene (2 : ℚ) 4 "a" "b").1.nodes 3 = some [3, 2, 0] := by decide
  refine ⟨rfl, rfl, ?_, rfl, ?_, ?_⟩
  · simp [subScene, sub, neg, add, mkValue, alloc, State.init, nodeAt, Value.mk4, dataAt,
      List.modify, List.modifyHead]
    norm_num
  · simp [subScene, sub, neg, add, mkValue, alloc, State.init, nodeAt, Value.mk4, dataAt,
      List.modify, List.modifyHead]
  · rw [topoOrder_backward _ rfl ho]
    simp [subScene, sub, neg, add, mkValue, alloc, State.init, replay, runRule, ruleAt, nodeAt,
      Value.mk4, setGrad, addGrad, dataAt, gradAt, labelAt, List.modify, List.modifyHead]

/-- C10: with `x = 5`, `y = 7` (cells: `x` 0, `y` 1, the static `other` 2,
`p` 3, `q` 4): after `p = x + 2`, the result `q = y + 3` holds `9` and its
constant operand is the cell of the first call, holding `2` and labelled
`"const 2"`; after `p = x * 2`, the result `q = y * 3` holds `14`, its
constant operand again the cell of the first call, holding `2`. -/
theorem int_constant_is_shared :
    ((addIntScene (5 : ℚ) 7 "x" "y" 2 3).2 = (0, 1, 3, 4) ∧
      prevAt (addIntScene (5 : ℚ) 7 "x" "y" 2 3).1.nodes 3 = [0, 2] ∧
      prevAt (addIntScene (5 : ℚ) 7 "x" "y" 2 3).1.nodes 4 = [1, 2] ∧
      labelAt (addIntScene (5 : ℚ) 7 "x" "y" 2 3).1.nodes 2 = "const 2" ∧
      dataAt (addIntScene (5 : ℚ) 7 "x" "y" 2 3).1.nodes 2 = 2 ∧
      dataAt (addIntScene (5 : ℚ) 7 "x" "y" 2 3).1.nodes 4 = 9) ∧
    ((mulIntScene (5 : ℚ) 7 "x" "y" 2 3).2 = (0, 1, 3, 4) ∧
      prevAt (mulIntScene (5 : ℚ) 7 "x" "y" 2 3).1.nodes 3 = [0, 2] ∧
      prevAt (mulIntScene (5 : ℚ) 7 "x" "y" 2 3).1.nodes 4 = [1, 2] ∧
      labelAt (mulIntScene (5 : ℚ) 7 "x" "y" 2 3).1.nodes 2 = "const 2" ∧
      dataAt (mulIntScene (5 : ℚ) 7 "x" "y" 2 3).1.nodes 2 = 2 ∧
      dataAt (mulIntScene (5 : ℚ) 7 "x" "y" 2 3).1.nodes 4 = 14) := by
  refine ⟨⟨rfl, rfl, rfl, by decide, ?_, ?_⟩, ⟨rfl, rfl, rfl, by decide, ?_, ?_⟩⟩ <;>
    simp [addIntScene, mulIntScene, addInt, mulInt, add, mul, mkValue, alloc, State.init,
      nodeAt, Value.mk4, dataAt] <;> norm_num

end Defects

section GeneralTraversal
variable {α : Type} [Field α]

theorem visit_mono {n : Nodes α} {cs : List Addr} {t t2 : Trav} {new : List Addr}
    (h : Visit n cs t t2 new) {u : Addr} (hu : u ∈ t.visited) : u ∈ t2.visited :=
  (h.visited_iff u).2 (Or.inl hu)

theorem visitAll_visit {n : Nodes α} {fuel : Nat}
    (hnode : ∀ v t t2, b_topo n fuel v t = some t2 → ∃ new, Visit n [v] t t2 new) :
    ∀ cs t t2, visitAll n fuel cs t = some t2 → ∃ new, Visit n cs t t2 new := by
  intro cs
  induction cs with
  | nil =>
    intro t t2 h
    rw [visitAll_nil] at h
    cases h
    exact ⟨[], ⟨by simp, by simp, List.nodup_nil, by simp, by simp, by simp, by simp⟩⟩
  | cons c cs ih =>
    intro t t2 h
    rw [visitAll_cons] at h
    cases h1 : b_topo n fuel c t with
    | none => rw [h1] at h; cases h
    | some t1 =>
      rw [h1] at h
      obtain ⟨new1, e1⟩ := hnode c t t1 h1
      obtain ⟨new2, e2⟩ := ih t1 t2 h
      refine ⟨new1 ++ new2, ?_⟩
      constructor
      · rw [e2.topo_eq, e1.topo_eq, List.append_assoc]
      · intro u
        rw [e2.visited_iff, e1.visited_iff, List.mem_append, or_assoc]
      · rw [List.nodup_append]
        exact ⟨e1.nodup, e2.nodup, fun u hu1 hu2 =>
          e2.fresh u hu2 ((e1.visited_iff u).2 (Or.inr hu1))⟩
      · intro u hu
        rcases List.mem_append.1 hu with h3 | h3
        · exact e1.fresh u h3
        · exact fun hv => e2.fresh u h3 (visit_mono e1 hv)
      · intro u hu
        rcases List.mem_append.1 hu with h3 | h3
        · obtain ⟨c1, hc1, hr⟩ := e1.reach u h3
          rw [List.mem_singleton] at hc1
          subst hc1
          exact ⟨c1, List.mem_cons_self _ _, hr⟩
        · obtain ⟨c1, hc1, hr⟩ := e2.reach u h3
          exact ⟨c1, List.mem_cons_of_mem _ hc1, hr⟩
      · intro c1 hc1
        rcases List.mem_cons.1 hc1 with h3 | h3
        · subst h3
          exact visit_mono e2 (e1.roots c1 (List.mem_singleton_self _))
        · exact e2.roots c1 h3
      · intro u hu c1 hc1
        rcases List.mem_append.1 hu with h3 | h3
        · exact visit_mono e2 (e1.closed u h3 c1 hc1)
        · exact e2.closed u h3 c1 hc1

theorem b_topo_visit {n : Nodes α} :
    ∀ fuel v t t2, b_topo n fuel v t = some t2 → ∃ new, Visit n [v] t t2 new := by
  intro fuel
  induction fuel with
  | zero => intro v t t2 h; simp [b_topo] at h
  | succ fuel ih =>
    intro v t t2 h
    rw [b_topo_succ] at h
    by_cases hv : v ∈ t.visited
    · rw [if_pos hv] at h
      cases h
      refine ⟨[], ⟨by simp, by simp, List.nodup_nil, by simp, by simp, ?_, by simp⟩⟩
      intro c hc
      rw [List.mem_singleton] at hc
      subst hc
      exact hv
    · rw [if_neg hv] at h
      cases h1 : visitAll n fuel (prevAt n v) ⟨v :: t.visited, t.topo⟩ with
      | none => rw [h1] at h; cases h
      | some t1 =>
        rw [h1] at h
        cases h
        obtain ⟨new1, e1⟩ := visitAll_visit ih (prevAt n v) _ t1 h1
        have hv1 : v ∉ new1 := fun h3 => e1.fresh v h3 (List.mem_cons_self _ _)
        have hvis : v ∈ t1.visited := visit_mono e1 (List.mem_cons_self _ _)
        refine ⟨new1 ++ [v], ?_⟩
        constructor
        · show t1.topo ++ [v] = t.topo ++ (new1 ++ [v])
          rw [e1.topo_eq, List.append_assoc]
        · intro u
          show u ∈ t1.visited ↔ _
          rw [e1.visited_iff, List.mem_append, List.mem_singleton, List.mem_cons]
          tauto
        · rw [List.nodup_append]
          refine ⟨e1.nodup, List.nodup_singleton _, ?_⟩
          intro u hu1 hu2
          rw [List.mem_singleton] at hu2
          subst hu2
          exact hv1 hu1
        · intro u hu
          rcases List.mem_append.1 hu with h3 | h3
          · exact fun h4 => e1.fresh u h3 (List.mem_cons_of_mem _ h4)
          · rw [List.mem_singleton] at h3
            subst h3
            exact hv
        · intro u hu
          refine ⟨v, List.mem_singleton_self _, ?_⟩
          rcases List.mem_append.1 hu with h3 | h3
          · obtain ⟨c1, hc1, hr⟩ := e1.reach u h3
            exact Relation.ReflTransGen.head hc1 hr
          · rw [List.mem_singleton] at h3
            subst h3
            exact Relation.ReflTransGen.refl
        · intro c hc
          rw [List.mem_singleton] at hc
          subst hc
          exact hvis
        · intro u hu c1 hc1
          show c1 ∈ t1.visited
          rcases List.mem_append.1 hu with h3 | h3
          · exact e1.closed u h3 c1 hc1
          · rw [List.mem_singleton] at h3
            subst h3
            exact e1.roots c1 hc1

/-- More fuel does not change an answer of the traversal. -/
theorem b_topo_fuel_succ {n : Nodes α} :
    ∀ fuel v t t2, b_topo n fuel v t = some t2 → b_topo n (fuel + 1) v t = some t2 := by
  intro fuel
  induction fuel with
  | zero => intro v t t2 h; simp [b_topo] at h
  | succ fuel ih =>
    intro v t t2 h
    have hall : ∀ cs t t2, visitAll n fuel cs t = some t2 →
        visitAll n (fuel + 1) cs t = some t2 := by
      intro cs
      induction cs with
      | nil => intro t t2 h1; exact h1
      | cons c cs ihc =>
        intro t t2 h1
        rw [visitAll_cons] at h1 ⊢
        cases h2 : b_topo n fuel c t with
        | none => rw [h2] at h1; cases h1
        | some t1 =>
          rw [h2] at h1
          rw [ih c t t1 h2]
          exact ihc t1 t2 h1
    rw [b_topo_succ] at h ⊢
    by_cases hv : v ∈ t.visited
    · rw [if_pos hv] at h ⊢; exact h
    · rw [if_neg hv] at h ⊢
      cases h1 : visitAll n fuel (prevAt n v) ⟨v :: t.visited, t.topo⟩ with
      | none => rw [h1] at h; cases h
      | some t1 =>
        rw [h1] at h
        rw [hall _ _ _ h1]
        exact h

theorem b_topo_fuel_le {n : Nodes α} {f1 f2 : Nat} (hle : f1 ≤ f2) {v : Addr} {t t2 : Trav}
    (h : b_topo n f1 v t = some t2) : b_topo n f2 v t = some t2 := by
  induction hle with
  | refl => exact h
  | step _ ih => exact b_topo_fuel_succ _ _ _ _ ih

/-- What the traversal of `backward` computes on any graph with valid
operand pointers, cyclic or not. -/
theorem topoOrder_general {n : Nodes α} {root : Addr} (hv : ValidRefs n)
    (hr : root < n.length) :
    ∃ order, topoOrder n root = some order ∧ order.Nodup ∧
      (∀ v, v ∈ order ↔ Reachable n root v) ∧ (∃ rest, order = root :: rest) ∧
      ∀ fuel, n.length + 1 ≤ fuel →
        (b_topo n fuel root ⟨[], []⟩).map (fun t => t.topo.reverse) = some order := by
  have hfuel : (unvisited n.length []).card < n.length + 1 := by
    refine Nat.lt_succ_of_le ?_
    calc (unvisited n.length []).card ≤ (Finset.range n.length).card :=
          Finset.card_le_card (Finset.filter_subset _ _)
      _ = n.length := Finset.card_range _
  obtain ⟨t2, h2, _⟩ := b_topo_total hv (n.length + 1) root ⟨[], []⟩ hr hfuel
  obtain ⟨new, e⟩ := b_topo_visit _ root _ t2 h2
  obtain ⟨l, hl⟩ := b_topo_last h2 (List.not_mem_nil root)
  have htopo : t2.topo = new := by rw [e.topo_eq]; rfl
  have hvis : ∀ u, u ∈ t2.visited ↔ u ∈ new := by
    intro u; rw [e.visited_iff]; simp
  have hroot : root ∈ new := (hvis root).1 (e.roots root (List.mem_singleton_self _))
  have hclosed : ∀ u, Reachable n root u → u ∈ new := by
    intro u hu
    induction hu with
    | refl => exact hroot
    | tail _ hbc ih => exact (hvis _).1 (e.closed _ ih _ hbc)
  refine ⟨t2.topo.reverse, ?_, ?_, ?_, ?_, ?_⟩
  · simp [topoOrder, h2]
  · rw [List.nodup_reverse, htopo]; exact e.nodup
  · intro v
    rw [List.mem_reverse, htopo]
    constructor
    · intro hm
      obtain ⟨c, hc, hreach⟩ := e.reach v hm
      rw [List.mem_singleton] at hc
      subst hc
      exact hreach
    · exact hclosed v
  · exact ⟨l.reverse, by rw [hl]; simp⟩
  · intro fuel hle
    rw [b_topo_fuel_le hle h2]
    rfl

theorem topoOrder_leaf {n : Nodes α} {root : Addr} (hleaf : prevAt n root = []) :
    topoOrder n root = some [root] := by
  unfold topoOrder
  rw [b_topo_succ, if_neg (List.not_mem_nil root), hleaf, visitAll_nil]
  rfl

theorem validRefs_of_forall {n : Nodes α}
    (h : ∀ v, v < n.length → ∀ c ∈ prevAt n v, c < n.length) : ValidRefs n :=
  fun v c hc => h v (operand_lt_length hc) c hc

theorem nodeAt_setGrad_ne (m : Nodes α) (q : Addr) (x : α) {p : Addr} (h : p ≠ q) :
    nodeAt (setGrad m q x) p = nodeAt m p := by
  unfold setGrad
  rw [nodeAt_modify, if_neg (fun h2 => h h2.1.symm)]

theorem SameShape.opAt_eq {n m : Nodes α} (h : SameShape n m) (p : Addr) :
    opAt m p = opAt n p := by
  have h1 := congrArg Value._op (h.frozen_nodeAt p)
  exact h1

/-- One call of a closure that reads its own object as `out`. -/
theorem gradAt_runRule_own {m : Nodes α} {v : Addr} (ho : OwnClosure m v) (u : Addr) :
    gradAt (runRule m (ruleAt m v)) u = gradAt m u + contrib m (ruleAt m v) (gradAt m v) u := by
  unfold OwnClosure at ho
  cases hr : ruleAt m v with
  | nop => simp [runRule, contrib]
  | add a b out =>
    rw [hr] at ho
    obtain ⟨rfl, hna, ha, hb⟩ := ho
    simp only [runRule, contrib]
    rw [gradAt_addGrad _ (by simpa using hb), gradAt_addGrad _ ha,
      gradAt_addGrad_ne _ _ _ (Ne.symm hna), add_assoc]
  | mul a b out =>
    rw [hr] at ho
    obtain ⟨rfl, hna, ha, hb⟩ := ho
    simp only [runRule, contrib]
    rw [gradAt_addGrad _ (by simpa using hb), gradAt_addGrad _ ha,
      gradAt_addGrad_ne _ _ _ (Ne.symm hna), dataAt_addGrad, add_assoc]
  | pow a k out =>
    rw [hr] at ho
    obtain ⟨rfl, ha⟩ := ho
    simp only [runRule, contrib]
    rw [gradAt_addGrad _ ha]
  | tanh a t out =>
    rw [hr] at ho
    obtain ⟨rfl, ha⟩ := ho
    simp only [runRule, contrib]
    rw [gradAt_addGrad _ ha]
  | exp a out =>
    rw [hr] at ho
    obtain ⟨rfl, ha⟩ := ho
    simp only [runRule, contrib]
    rw [gradAt_addGrad _ ha]

theorem ownClosure_congr {n m : Nodes α} (h : SameShape n m) {v : Addr}
    (ho : OwnClosure n v) : OwnClosure m v := by
  unfold OwnClosure at ho ⊢
  rw [h.ruleAt_eq, h.length_eq]
  exact ho

end GeneralTraversal

section Termination
variable {α : Type} [Field α]

/-- C14 (amended): on a graph with a cycle reachable from the root, the
traversal of `backward` raises nothing: it returns the order, in which the
object `v` on the cycle, like every reachable object, is listed exactly
once, and `backward` completes the pass, seeding the root and calling the
closures along the order; the graph stays cyclic. When every reachable
closure reads its own object as `out`, as the operators attach it, the
`grad` every object ends with is the seed or the `grad` it had plus, once
for each scheduled object, what the closure of that object adds on reading
the `grad` its object holds at the moment of the call. -/
theorem backward_completes_on_cycle (n : Nodes α) (root v : Addr) (hv : ValidRefs n)
    (hr : root < n.length) (hreach : Reachable n root v)
    (hcyc : Relation.TransGen (Operand n) v v) :
    ∃ order, topoOrder n root = some order ∧ order.count v = 1 ∧
      order.Nodup ∧ (∀ w, w ∈ order ↔ Reachable n root w) ∧ order.head? = some root ∧
      backwardNodes n root = some (replay (setGrad n root 1) order) ∧
      Relation.TransGen (Operand (replay (setGrad n root 1) order)) v v ∧
      ((∀ w, Reachable n root w → OwnClosure n w) →
        ∃ m, backwardNodes n root = some m ∧
          ∀ x, gradAt m x = (if x = root then 1 else gradAt n x) +
            (order.map (fun w => contrib n (ruleAt n w)
              (gradAt (replay (setGrad n root 1) (order.take (order.indexOf w))) w) x)).sum) := by
  obtain ⟨order, ho, hnd, hmem, ⟨rest, hrest⟩, -⟩ := topoOrder_general hv hr
  have hs : SameShape n (replay (setGrad n root 1) order) :=
    sameShape_replay (sameShape_setGrad (sameShape_refl n) root 1) order
  refine ⟨order, ho, List.count_eq_one_of_mem hnd ((hmem v).2 hreach), hnd, hmem,
    by rw [hrest]; rfl, topoOrder_backwardNodes ho, ?_, ?_⟩
  · have hop : Operand (replay (setGrad n root 1) order) = Operand n := by
      funext a b; exact propext (operand_congr hs)
    rw [hop]
    exact hcyc
  · intro hown
    have hs0 : SameShape n (setGrad n root 1) := sameShape_setGrad (sameShape_refl n) root 1
    have hcalls : ∀ l : List Addr, l.Nodup → (∀ w ∈ l, OwnClosure n w) → ∀ x,
        gradAt (replay (setGrad n root 1) l) x = gradAt (setGrad n root 1) x +
          (l.map (fun w => contrib n (ruleAt n w)
            (gradAt (replay (setGrad n root 1) (l.take (l.indexOf w))) w) x)).sum := by
      intro l
      induction l using List.reverseRecOn with
      | nil => intro _ _ x; simp [replay]
      | append_singleton l w ih =>
        intro hnd1 hoc x
        have hnd2 := List.nodup_append.1 hnd1
        have hw : w ∉ l := fun h => hnd2.2.2 h (List.mem_singleton_self w)
        have hsl : SameShape n (replay (setGrad n root 1) l) := sameShape_replay hs0 l
        have how : OwnClosure n w :=
          hoc w (List.mem_append_right _ (List.mem_singleton_self w))
        have hsnoc : replay (setGrad n root 1) (l ++ [w]) =
            runRule (replay (setGrad n root 1) l) (ruleAt (replay (setGrad n root 1) l) w) := by
          unfold replay
          rw [List.foldl_append]
          rfl
        have hmap : l.map (fun u => contrib n (ruleAt n u)
              (gradAt (replay (setGrad n root 1)
                ((l ++ [w]).take ((l ++ [w]).indexOf u))) u) x) =
            l.map (fun u => contrib n (ruleAt n u)
              (gradAt (replay (setGrad n root 1) (l.take (l.indexOf u))) u) x) := by
          apply List.map_congr_left
          intro u hu
          rw [List.indexOf_append_of_mem hu,
            List.take_append_of_le_length (List.indexOf_le_length)]
        have hlast : (l ++ [w]).take ((l ++ [w]).indexOf w) = l := by
          rw [List.indexOf_append_of_not_mem hw, List.indexOf_cons_self, add_zero,
            List.take_left]
        rw [hsnoc, gradAt_runRule_own (ownClosure_congr hsl how), contrib_congr hsl,
          hsl.ruleAt_eq, ih hnd2.1 (fun u hu => hoc u (List.mem_append_left _ hu)) x,
          List.map_append, List.sum_append, hmap, List.map_singleton, List.sum_singleton,
          hlast, add_assoc]
    refine ⟨_, topoOrder_backwardNodes ho, fun x => ?_⟩
    rw [hcalls order hnd (fun w hw => hown w ((hmem w).1 hw)) x, gradAt_setGrad n hr]

/-- C19: on every graph with valid operand pointers, cyclic or not, the
traversal returns, with the same answer for every bound on the depth of the
recursion from the number of objects plus one on; no object is listed twice
and the objects listed are the reachable ones; on a root without operands
the order is `[root]`, and `backward` on a leaf root returns with the `grad`
of the root equal to 1, every other field of the root and every other object
as they were. -/
theorem traversal_terminates (n : Nodes α) (root : Addr) (hv : ValidRefs n)
    (hr : root < n.length) :
    ∃ order, topoOrder n root = some order ∧
      (∀ fuel, n.length + 1 ≤ fuel →
        (b_topo n fuel root ⟨[], []⟩).map (fun t => t.topo.reverse) = some order) ∧
      order.Nodup ∧ (∀ v, v ∈ order ↔ Reachable n root v) ∧
      (prevAt n root = [] → order = [root]) ∧
      (prevAt n root = [] → ruleAt n root = Rule.nop →
        ∃ m, backwardNodes n root = some m ∧ gradAt m root = 1 ∧ m.length = n.length ∧
          (∀ p, p ≠ root → nodeAt m p = nodeAt n p) ∧
          dataAt m root = dataAt n root ∧ opAt m root = opAt n root ∧
          prevAt m root = prevAt n root ∧ labelAt m root = labelAt n root ∧
          ruleAt m root = ruleAt n root) := by
  obtain ⟨order, ho, hnd, hmem, -, hfuel⟩ := topoOrder_general hv hr
  refine ⟨order, ho, hfuel, hnd, hmem, ?_, ?_⟩
  · intro hleaf
    have h := topoOrder_leaf hleaf
    rw [ho] at h
    exact Option.some.inj h
  · intro hleaf hrule
    have hb : backwardNodes n root = some (setGrad n root 1) := by
      rw [topoOrder_backwardNodes (topoOrder_leaf hleaf)]
      show some (runRule (setGrad n root 1) (ruleAt (setGrad n root 1) root)) = _
      rw [ruleAt_setGrad, hrule]
      rfl
    have hs : SameShape n (setGrad n root 1) := sameShape_setGrad (sameShape_refl n) root 1
    refine ⟨_, hb, ?_, hs.length_eq, fun p hp => nodeAt_setGrad_ne n root 1 hp,
      hs.dataAt_eq root, hs.opAt_eq root, hs.prevAt_eq root, hs.labelAt_eq root,
      hs.ruleAt_eq root⟩
    unfold gradAt setGrad
    rw [nodeAt_modify, if_pos ⟨rfl, hr⟩]

end Termination

section TerminationWitnesses

theorem cycleNodes_validRefs : ValidRefs cycleNodes :=
  validRefs_of_forall (by decide)

theorem cycleNodes_cycle : Relation.TransGen (Operand cycleNodes) 0 0 :=
  Relation.TransGen.tail (Relation.TransGen.single (by decide : Operand cycleNodes 0 2))
    (by decide : Operand cycleNodes 2 0)

theorem cycleNodes_reach : Reachable cycleNodes 2 0 :=
  Relation.ReflTransGen.single (by decide : Operand cycleNodes 2 0)

/-- C14 as stated fails: in the graph of `cycleNodes`, where `a` and
`c = a * b` are operands of each other, `backward` on `c` returns: the order
is `[c, b, a]`, and the `grad`s of `a` and `b` go from 0 to 3 and 2. -/
theorem backward_on_cycle_counterexample :
    Reachable cycleNodes 2 0 ∧ Relation.TransGen (Operand cycleNodes) 0 0 ∧
    topoOrder cycleNodes 2 = some [2, 1, 0] ∧
    (gradAt cycleNodes 0, gradAt cycleNodes 1) = (0, 0) ∧
    (backwardNodes cycleNodes 2).map (fun m => (gradAt m 2, gradAt m 0, gradAt m 1)) =
      some (1, 3, 2) := by
  have ho : topoOrder cycleNodes 2 = some [2, 1, 0] := by decide
  refine ⟨cycleNodes_reach, cycleNodes_cycle, ho, rfl, ?_⟩
  rw [topoOrder_backwardNodes ho]
  simp [cycleNodes, mkValue, alloc, mul, State.init, replay, runRule, ruleAt, nodeAt, Value.mk4,
    setGrad, addGrad, dataAt, gradAt, labelAt, List.modify, List.modifyHead]

theorem cycleNodes_ownClosure (w : Addr) : OwnClosure cycleNodes w := by
  by_cases hw : w < 3
  · interval_cases w
    · exact trivial
    · exact trivial
    · exact ⟨rfl, by decide, by decide, by decide⟩
  · unfold OwnClosure
    rw [ruleAt_of_le _ (not_lt.1 hw)]
    exact trivial

theorem backward_completes_on_cycle_witness :
    ValidRefs cycleNodes ∧ 2 < cycleNodes.length ∧ Reachable cycleNodes 2 0 ∧
    Relation.TransGen (Operand cycleNodes) 0 0 ∧
    (∀ w, Reachable cycleNodes 2 w → OwnClosure cycleNodes w) ∧
    ∃ order, topoOrder cycleNodes 2 = some order ∧ order.count 0 = 1 ∧
      order.Nodup ∧ (∀ w, w ∈ order ↔ Reachable cycleNodes 2 w) ∧ order.head? = some 2 ∧
      backwardNodes cycleNodes 2 = some (replay (setGrad cycleNodes 2 1) order) ∧
      Relation.TransGen (Operand (replay (setGrad cycleNodes 2 1) order)) 0 0 ∧
      ∃ m, backwardNodes cycleNodes 2 = some m ∧
        (∀ x, gradAt m x = (if x = 2 then 1 else gradAt cycleNodes x) +
          (order.map (fun w => contrib cycleNodes (ruleAt cycleNodes w)
            (gradAt (replay (setGrad cycleNodes 2 1)
              (order.take (order.indexOf w))) w) x)).sum) ∧
        (gradAt m 2, gradAt m 1, gradAt m 0) = (1, 2, 3) := by
  have ho : topoOrder cycleNodes 2 = some [2, 1, 0] := by decide
  have hg : (backwardNodes cycleNodes 2).map (fun m => (gradAt m 2, gradAt m 1, gradAt m 0)) =
      some (1, 2, 3) := by
    rw [topoOrder_backwardNodes ho]
    simp [cycleNodes, mkValue, alloc, mul, State.init, replay, runRule, ruleAt, nodeAt,
      Value.mk4, setGrad, addGrad, dataAt, gradAt, labelAt, List.modify, List.modifyHead]
  obtain ⟨order, h1, h2, h3, h4, h5, h6, h7, h8⟩ :=
    backward_completes_on_cycle cycleNodes 2 0 cycleNodes_validRefs (by decide)
      cycleNodes_reach cycleNodes_cycle
  obtain ⟨m, hm, h9⟩ := h8 (fun w _ => cycleNodes_ownClosure w)
  rw [hm] at hg
  exact ⟨cycleNodes_validRefs, by decide, cycleNodes_reach, cycleNodes_cycle,
    fun w _ => cycleNodes_ownClosure w, order, h1, h2, h3, h4, h5, h6, h7, m, hm, h9,
    Option.some.inj hg⟩

theorem traversal_terminates_witness :
    (ValidRefs cycleNodes ∧ 2 < cycleNodes.length ∧
      ∃ order, topoOrder cycleNodes 2 = some order ∧
        (∀ fuel, cycleNodes.length + 1 ≤ fuel →
          (b_topo cycleNodes fuel 2 ⟨[], []⟩).map (fun t => t.topo.reverse) = some order) ∧
        order.Nodup ∧ (∀ v, v ∈ order ↔ Reachable cycleNodes 2 v)) ∧
    (ValidRefs cycleNodes ∧ 1 < cycleNodes.length ∧ prevAt cycleNodes 1 = [] ∧
      ruleAt cycleNodes 1 = Rule.nop ∧ gradAt cycleNodes 1 = 0 ∧
      topoOrder cycleNodes 1 = some [1] ∧
      ∃ m, backwardNodes cycleNodes 1 = some m ∧ gradAt m 1 = 1 ∧
        m.length = cycleNodes.length ∧
        (∀ p, p ≠ 1 → nodeAt m p = nodeAt cycleNodes p) ∧
        dataAt m 1 = dataAt cycleNodes 1 ∧ opAt m 1 = opAt cycleNodes 1 ∧
        prevAt m 1 = prevAt cycleNodes 1 ∧ labelAt m 1 = labelAt cycleNodes 1 ∧
        ruleAt m 1 = ruleAt cycleNodes 1) ∧
    (backwardNodes cycleNodes 1).map (fun m => (gradAt m 0, gradAt m 1, gradAt m 2)) =
      some (0, 1, 0) :=
  ⟨⟨cycleNodes_validRefs, by decide,
      (traversal_terminates cycleNodes 2 cycleNodes_validRefs (by decide)).imp
        (fun _ h => ⟨h.1, h.2.1, h.2.2.1, h.2.2.2.1⟩)⟩,
    ⟨cycleNodes_validRefs, by decide, rfl, rfl, rfl,
      (traversal_terminates cycleNodes 1 cycleNodes_validRefs (by decide)).elim
        (fun _ h => by rw [h.1, h.2.2.2.2.1 rfl]),
      (traversal_terminates cycleNodes 1 cycleNodes_validRefs (by decide)).elim
        (fun _ h => h.2.2.2.2.2 rfl rfl)⟩,
    by
      rw [topoOrder_backwardNodes (by decide : topoOrder cycleNodes 1 = some [1])]
      simp [cycleNodes, mkValue, alloc, mul, State.init, replay, runRule, ruleAt, nodeAt,
        Value.mk4, setGrad, addGrad, dataAt, gradAt, labelAt, List.modify, List.modifyHead]⟩

end TerminationWitnesses

section BackwardFrame
variable {α : Type} [Field α]

theorem nodeAt_addGrad_ne (m : Nodes α) (q : Addr) (x : α) {p : Addr} (h : p ≠ q) :
    nodeAt (addGrad m q x) p = nodeAt m p := by
  unfold addGrad
  rw [nodeAt_modify, if_neg (fun h2 => h h2.1.symm)]

theorem nodeAt_runRule_frame (m : Nodes α) (r : Rule α) {p : Addr} (h : p ∉ r.targets) :
    nodeAt (runRule m r) p = nodeAt m p := by
  cases r <;> simp only [Rule.targets, List.mem_cons, List.mem_singleton, List.not_mem_nil,
    or_false, not_or] at h <;> simp only [runRule]
  · rw [nodeAt_addGrad_ne _ _ _ h.2, nodeAt_addGrad_ne _ _ _ h.1]
  · rw [nodeAt_addGrad_ne _ _ _ h.2, nodeAt_addGrad_ne _ _ _ h.1]
  · rw [nodeAt_addGrad_ne _ _ _ h]
  · rw [nodeAt_addGrad_ne _ _ _ h]
  · rw [nodeAt_addGrad_ne _ _ _ h]

theorem nodeAt_replay_frame {n : Nodes α} {p : Addr} (order : List Addr) :
    ∀ m, SameShape n m → (∀ w ∈ order, p ∉ (ruleAt n w).targets) →
      nodeAt (replay m order) p = nodeAt m p := by
  induction order with
  | nil => intro m _ _; rfl
  | cons w order ih =>
    intro m hs hw
    show nodeAt (replay (runRule m (ruleAt m w)) order) p = _
    rw [ih _ (sameShape_runRule hs _) (fun w2 h2 => hw w2 (List.mem_cons_of_mem _ h2)),
      nodeAt_runRule_frame _ _ (by rw [hs.ruleAt_eq]; exact hw w (List.mem_cons_self _ _))]

/-- C20: on a graph with valid operand pointers whose closures write their
own operands, `backward` returns an arena of the same size in which every
object has the value, operation tag, operand list, label and closure it had,
every object that is not reachable from the root is as it was, `grad`
included, and the traversal from the same root gives the same order. -/
theorem backward_writes_reachable_grads (n : Nodes α) (root : Addr) (hv : ValidRefs n)
    (hr : root < n.length) (hw : ∀ w, Reachable n root w → WritesOperands n w) :
    ∃ m, backwardNodes n root = some m ∧ m.length = n.length ∧
      (∀ p, dataAt m p = dataAt n p ∧ opAt m p = opAt n p ∧ prevAt m p = prevAt n p ∧
        labelAt m p = labelAt n p ∧ ruleAt m p = ruleAt n p) ∧
      (∀ p, ¬ Reachable n root p → nodeAt m p = nodeAt n p) ∧
      topoOrder m root = topoOrder n root := by
  obtain ⟨order, ho, -, hmem, -, -⟩ := topoOrder_general hv hr
  have hs0 : SameShape n (setGrad n root 1) := sameShape_setGrad (sameShape_refl n) root 1
  have hs : SameShape n (replay (setGrad n root 1) order) := sameShape_replay hs0 order
  refine ⟨_, topoOrder_backwardNodes ho, hs.length_eq, ?_, ?_, topoOrder_congr hs root⟩
  · intro p
    exact ⟨hs.dataAt_eq p, hs.opAt_eq p, hs.prevAt_eq p, hs.labelAt_eq p, hs.ruleAt_eq p⟩
  · intro p hp
    have hne : p ≠ root := fun h => hp (h ▸ Relation.ReflTransGen.refl)
    rw [nodeAt_replay_frame order _ hs0, nodeAt_setGrad_ne _ _ _ hne]
    intro w hwo hpt
    have hrw : Reachable n root w := (hmem w).1 hwo
    exact hp (Relation.ReflTransGen.tail hrw (hw w hrw p hpt))

end BackwardFrame

section BackwardFrameWitness

theorem coherent_writesOperands {α : Type} [Field α] {n : Nodes α} {v : Addr}
    (h : Coherent n v) : WritesOperands n v := by
  unfold Coherent at h
  unfold WritesOperands Operand
  cases hr : ruleAt n v <;> rw [hr] at h <;> simp only [Rule.targets]
  · intro c hc; exact absurd hc (List.not_mem_nil _)
  all_goals
    rw [h.2]
    exact fun c hc => hc

theorem backward_writes_reachable_grads_witness :
    ValidRefs mulAddState.nodes ∧ 3 < mulAddState.nodes.length ∧
    (∀ w, Reachable mulAddState.nodes 3 w → WritesOperands mulAddState.nodes w) ∧
    ∃ m, backwardNodes mulAddState.nodes 3 = some m ∧ m.length = mulAddState.nodes.length ∧
      (∀ p, dataAt m p = dataAt mulAddState.nodes p ∧ opAt m p = opAt mulAddState.nodes p ∧
        prevAt m p = prevAt mulAddState.nodes p ∧ labelAt m p = labelAt mulAddState.nodes p ∧
        ruleAt m p = ruleAt mulAddState.nodes p) ∧
      (∀ p, ¬ Reachable mulAddState.nodes 3 p → nodeAt m p = nodeAt mulAddState.nodes p) ∧
      topoOrder m 3 = topoOrder mulAddState.nodes 3 :=
  ⟨mulAddState_built.polyGraph.1.validRefs, by decide,
    fun w _ => coherent_writesOperands (mulAddState_built.polyGraph.1.coherent w),
    backward_writes_reachable_grads mulAddState.nodes 3
      mulAddState_built.polyGraph.1.validRefs (by decide)
      (fun w _ => coherent_writesOperands (mulAddState_built.polyGraph.1.coherent w))⟩

end BackwardFrameWitness

section ConstructionFrame
variable {α : Type} [Field α]

theorem freshResult_alloc (s : State α) (v : Value α) (hg : v.grad = 0) :
    FreshResult s (alloc s v) v._prev := by
  refine ⟨rfl, by simp [alloc], fun p hp => nodeAt_append_left _ _ hp, ?_, ?_⟩
  · show (nodeAt (s.nodes ++ [v]) s.nodes.length).grad = 0
    rw [nodeAt_append_new]; exact hg
  · show (nodeAt (s.nodes ++ [v]) s.nodes.length)._prev = _
    rw [nodeAt_append_new]

/-- C18: for existing objects `a` and `b`, each of `a + b`, `a * b`,
`a.pow_(k)`, `a.tanh()` and `a.exp_()` returns a new object with `grad` 0
whose operand list is `[a, b]`, resp. `[a]`, and leaves every existing
object, `a` and `b` among them, as it was, in all its fields (whatever the
closures of `pow_` and `tanh` will read as `k` and `t`). -/
theorem construction_is_side_effect_free (expf : α → α) (s : State α) (a b : Addr)
    (k kRead : Int) (tRead : α) (ha : a < s.nodes.length) (hb : b < s.nodes.length) :
    (FreshResult s (add s a b) [a, b] ∧ FreshResult s (mul s a b) [a, b] ∧
      FreshResult s (pow_ s a k kRead) [a] ∧ FreshResult s (tanh expf s a tRead) [a] ∧
      FreshResult s (exp_ expf s a) [a]) ∧
    (nodeAt (add s a b).1.nodes a = nodeAt s.nodes a ∧
      nodeAt (add s a b).1.nodes b = nodeAt s.nodes b ∧
      nodeAt (mul s a b).1.nodes a = nodeAt s.nodes a ∧
      nodeAt (mul s a b).1.nodes b = nodeAt s.nodes b ∧
      nodeAt (pow_ s a k kRead).1.nodes a = nodeAt s.nodes a ∧
      nodeAt (tanh expf s a tRead).1.nodes a = nodeAt s.nodes a ∧
      nodeAt (exp_ expf s a).1.nodes a = nodeAt s.nodes a) := by
  have h1 : FreshResult s (add s a b) [a, b] := freshResult_alloc s _ rfl
  have h2 : FreshResult s (mul s a b) [a, b] := freshResult_alloc s _ rfl
  have h3 : FreshResult s (pow_ s a k kRead) [a] := freshResult_alloc s _ rfl
  have h4 : FreshResult s (tanh expf s a tRead) [a] := freshResult_alloc s _ rfl
  have h5 : FreshResult s (exp_ expf s a) [a] := freshResult_alloc s _ rfl
  exact ⟨⟨h1, h2, h3, h4, h5⟩, h1.2.2.1 a ha, h1.2.2.1 b hb, h2.2.2.1 a ha, h2.2.2.1 b hb,
    h3.2.2.1 a ha, h4.2.2.1 a ha, h5.2.2.1 a ha⟩

end ConstructionFrame

section ConstructionFrameWitness

theorem construction_is_side_effect_free_witness :
    (0 : Addr) < mulAddState.nodes.length ∧ (1 : Addr) < mulAddState.nodes.length ∧
    (FreshResult mulAddState (add mulAddState 0 1) [0, 1] ∧
      FreshResult mulAddState (mul mulAddState 0 1) [0, 1] ∧
      FreshResult mulAddState (pow_ mulAddState 0 3 7) [0] ∧
      FreshResult mulAddState (tanh (fun x => x) mulAddState 0 5) [0] ∧
      FreshResult mulAddState (exp_ (fun x => x) mulAddState 0) [0]) ∧
    (nodeAt (add mulAddState 0 1).1.nodes 0 = nodeAt mulAddState.nodes 0 ∧
      nodeAt (add mulAddState 0 1).1.nodes 1 = nodeAt mulAddState.nodes 1 ∧
      nodeAt (mul mulAddState 0 1).1.nodes 0 = nodeAt mulAddState.nodes 0 ∧
      nodeAt (mul mulAddState 0 1).1.nodes 1 = nodeAt mulAddState.nodes 1 ∧
      nodeAt (pow_ mulAddState 0 3 7).1.nodes 0 = nodeAt mulAddState.nodes 0 ∧
      nodeAt (tanh (fun x => x) mulAddState 0 5).1.nodes 0 = nodeAt mulAddState.nodes 0 ∧
      nodeAt (exp_ (fun x => x) mulAddState 0).1.nodes 0 = nodeAt mulAddState.nodes 0) :=
  ⟨by decide, by decide,
    construction_is_side_effect_free (fun x => x) mulAddState 0 1 3 7 5 (by decide) (by decide)⟩

end ConstructionFrameWitness

section Exponential
variable {α : Type} [Field α]

theorem prevAt_append_left (n l : Nodes α) {p : Addr} (h : p < n.length) :
    prevAt (n ++ l) p = prevAt n p := by
  unfold prevAt; rw [nodeAt_append_left n l h]

theorem ruleAt_append_left (n l : Nodes α) {p : Addr} (h : p < n.length) :
    ruleAt (n ++ l) p = ruleAt n p := by
  unfold ruleAt; rw [nodeAt_append_left n l h]

theorem dataAt_append_left (n l : Nodes α) {p : Addr} (h : p < n.length) :
    dataAt (n ++ l) p = dataAt n p := by
  unfold dataAt; rw [nodeAt_append_left n l h]

theorem gradAt_append_left (n l : Nodes α) {p : Addr} (h : p < n.length) :
    gradAt (n ++ l) p = gradAt n p := by
  unfold gradAt; rw [nodeAt_append_left n l h]

/-- The operands in an arena with one more object. -/
theorem operand_snoc {n : Nodes α} {v : Value α} {w c : Addr} (h : Operand (n ++ [v]) w c) :
    (w < n.length ∧ Operand n w c) ∨ (w = n.length ∧ c ∈ v._prev) := by
  have hlt : w < n.length + 1 := by
    have := operand_lt_length h
    simpa using this
  rcases Nat.lt_succ_iff_lt_or_eq.1 hlt with h1 | h1
  · left
    refine ⟨h1, ?_⟩
    unfold Operand at h ⊢
    rwa [prevAt_append_left n _ h1] at h
  · right
    refine ⟨h1, ?_⟩
    unfold Operand prevAt at h
    rwa [h1, nodeAt_append_new] at h

theorem operand_snoc_left {n : Nodes α} (v : Value α) {w c : Addr} (h : Operand n w c) :
    Operand (n ++ [v]) w c := by
  unfold Operand at h ⊢
  rwa [prevAt_append_left n _ (operand_lt_length h)]

theorem validRefs_snoc {n : Nodes α} (hv : ValidRefs n) (v : Value α)
    (hp : ∀ c ∈ v._prev, c < n.length) : ValidRefs (n ++ [v]) := by
  intro w c h
  rw [List.length_append, List.length_singleton]
  rcases operand_snoc h with ⟨_, h1⟩ | ⟨_, h1⟩
  · exact Nat.lt_succ_of_lt (hv w c h1)
  · exact Nat.lt_succ_of_lt (hp c h1)

theorem transGen_snoc {n : Nodes α} (hv : ValidRefs n) (v : Value α)
    (hp : ∀ c ∈ v._prev, c < n.length) {x y : Addr}
    (h : Relation.TransGen (Operand (n ++ [v])) x y) :
    y < n.length ∧ (x < n.length → Relation.TransGen (Operand n) x y) := by
  induction h with
  | single h1 =>
    rcases operand_snoc h1 with ⟨_, h2⟩ | ⟨h2, h3⟩
    · exact ⟨hv _ _ h2, fun _ => Relation.TransGen.single h2⟩
    · exact ⟨hp _ h3, fun hx => absurd hx (by rw [h2]; exact lt_irrefl _)⟩
  | tail _ h2 ih =>
    rcases operand_snoc h2 with ⟨_, h3⟩ | ⟨h3, _⟩
    · exact ⟨hv _ _ h3, fun hx => Relation.TransGen.tail (ih.2 hx) h3⟩
    · exact absurd ih.1 (by rw [h3]; exact lt_irrefl _)

theorem acyclic_snoc {n : Nodes α} (hv : ValidRefs n) (ha : Acyclic n) (v : Value α)
    (hp : ∀ c ∈ v._prev, c < n.length) : Acyclic (n ++ [v]) := by
  intro x h
  have h1 := transGen_snoc hv v hp h
  exact ha x (h1.2 h1.1)

theorem reachable_lt {n : Nodes α} (hv : ValidRefs n) {a w : Addr} (ha : a < n.length)
    (h : Reachable n a w) : w < n.length := by
  rcases Relation.ReflTransGen.cases_tail h with h1 | ⟨d, _, hd⟩
  · rw [h1]; exact ha
  · exact hv _ _ hd

/-- What can be reached from a new object whose only operand is `a`. -/
theorem reachable_snoc {n : Nodes α} (hv : ValidRefs n) {v : Value α} {a : Addr}
    (ha : a < n.length) (hp : v._prev = [a]) {w : Addr}
    (h : Reachable (n ++ [v]) n.length w) : w = n.length ∨ Reachable n a w := by
  induction h with
  | refl => exact Or.inl rfl
  | @tail x y _ h2 ih =>
    rcases ih with h3 | h3
    · rcases operand_snoc h2 with ⟨h4, _⟩ | ⟨_, h5⟩
      · exact absurd h4 (by rw [h3]; exact lt_irrefl _)
      · rw [hp, List.mem_singleton] at h5
        rw [h5]
        exact Or.inr Relation.ReflTransGen.refl
    · rcases operand_snoc h2 with ⟨_, h5⟩ | ⟨h4, _⟩
      · exact Or.inr (Relation.ReflTransGen.tail h3 h5)
      · exact absurd (reachable_lt hv ha h3) (by rw [h4]; exact lt_irrefl _)

theorem coherent_append_left {n : Nodes α} (l : Nodes α) {w : Addr} (hw : w < n.length)
    (h : Coherent n w) : Coherent (n ++ l) w := by
  unfold Coherent at h ⊢
  rw [ruleAt_append_left n l hw, prevAt_append_left n l hw]
  exact h

/-- C16: for an existing object `a` of an acyclic graph of operator-built
objects, `out = a.exp_()` holds `exp(a.value)`, its closure adds
`out.data * out.grad` to `a.grad`, and, `a.grad` being 0 before, `backward`
on `out` leaves `exp(a.value)` in `a.grad`. -/
theorem exp_backward (expf : α → α) (s : State α) (a : Addr) (ha : a < s.nodes.length)
    (hv : ValidRefs s.nodes) (hac : Acyclic s.nodes)
    (hc : ∀ w, Reachable s.nodes a w → Coherent s.nodes w) (h0 : gradAt s.nodes a = 0) :
    dataAt (exp_ expf s a).1.nodes (exp_ expf s a).2 = expf (dataAt s.nodes a) ∧
    ruleAt (exp_ expf s a).1.nodes (exp_ expf s a).2 = Rule.exp a (exp_ expf s a).2 ∧
    (∀ m : Nodes α, runRule m (Rule.exp a (exp_ expf s a).2) =
      addGrad m a (dataAt m (exp_ expf s a).2 * gradAt m (exp_ expf s a).2)) ∧
    (backward (exp_ expf s a).1 (exp_ expf s a).2).map (fun t => gradAt t.nodes a) =
      some (expf (dataAt s.nodes a)) := by
  have hdata : dataAt (exp_ expf s a).1.nodes (exp_ expf s a).2 = expf (dataAt s.nodes a) := by
    show (nodeAt (s.nodes ++ [_]) s.nodes.length).data = _
    rw [nodeAt_append_new]; rfl
  have hrule : ruleAt (exp_ expf s a).1.nodes (exp_ expf s a).2 =
      Rule.exp a (exp_ expf s a).2 := by
    show (nodeAt (s.nodes ++ [_]) s.nodes.length)._backward = _
    rw [nodeAt_append_new]; rfl
  have hprev : prevAt (exp_ expf s a).1.nodes (exp_ expf s a).2 = [a] := by
    show (nodeAt (s.nodes ++ [_]) s.nodes.length)._prev = _
    rw [nodeAt_append_new]; rfl
  refine ⟨hdata, hrule, fun m => rfl, ?_⟩
  obtain ⟨v, hnodes, hroot, hvp⟩ : ∃ v : Value α, (exp_ expf s a).1.nodes = s.nodes ++ [v] ∧
      (exp_ expf s a).2 = s.nodes.length ∧ v._prev = [a] := ⟨_, rfl, rfl, rfl⟩
  rw [hroot] at hdata hrule hprev ⊢
  rw [hnodes] at hdata hrule hprev
  have hpl : ∀ c ∈ v._prev, c < s.nodes.length := by
    intro c hcm; rw [hvp, List.mem_singleton] at hcm; rw [hcm]; exact ha
  have hne : a ≠ s.nodes.length := Nat.ne_of_lt ha
  have hcoh : ∀ w, Reachable (s.nodes ++ [v]) s.nodes.length w →
      Coherent (s.nodes ++ [v]) w := by
    intro w hw
    rcases reachable_snoc hv ha hvp hw with h1 | h1
    · rw [h1]
      unfold Coherent
      rw [hrule]
      exact ⟨rfl, hprev⟩
    · exact coherent_append_left _ (reachable_lt hv ha h1) (hc w h1)
  have hcons : ∀ w, Reachable (s.nodes ++ [v]) s.nodes.length w →
      Operand (s.nodes ++ [v]) w a → w = s.nodes.length := by
    intro w hw hop
    rcases reachable_snoc hv ha hvp hw with h1 | h1
    · exact h1
    · rcases operand_snoc hop with ⟨_, h2⟩ | ⟨h2, _⟩
      · exact absurd (Relation.TransGen.tail' h1 h2) (hac a)
      · exact h2
  obtain ⟨n1, hb, -, hg⟩ := gradAt_backward_direct (validRefs_snoc hv v hpl)
    (by simp) (acyclic_snoc hv hac v hpl) hcoh hne hcons
  have hback : backward (exp_ expf s a).1 s.nodes.length =
      some { (exp_ expf s a).1 with nodes := n1 } := by
    unfold backward
    rw [hnodes, hb]
    rfl
  rw [hback]
  show some (gradAt n1 a) = _
  rw [hg, hrule, gradAt_append_left _ _ ha, h0]
  simp only [contrib, if_pos, hdata]
  simp

end Exponential

section ExponentialWitness

theorem exp_backward_witness :
    (4 : Addr) < mulAddState.nodes.length ∧ ValidRefs mulAddState.nodes ∧
    Acyclic mulAddState.nodes ∧
    (∀ w, Reachable mulAddState.nodes 4 w → Coherent mulAddState.nodes w) ∧
    gradAt mulAddState.nodes 4 = 0 ∧
    (dataAt (exp_ (fun x => x + 1) mulAddState 4).1.nodes (exp_ (fun x => x + 1) mulAddState 4).2 =
      dataAt mulAddState.nodes 4 + 1 ∧
    ruleAt (exp_ (fun x => x + 1) mulAddState 4).1.nodes (exp_ (fun x => x + 1) mulAddState 4).2 =
      Rule.exp 4 (exp_ (fun x => x + 1) mulAddState 4).2 ∧
    (∀ m : Nodes ℚ, runRule m (Rule.exp 4 (exp_ (fun x => x + 1) mulAddState 4).2) =
      addGrad m 4 (dataAt m (exp_ (fun x => x + 1) mulAddState 4).2 *
        gradAt m (exp_ (fun x => x + 1) mulAddState 4).2)) ∧
    (backward (exp_ (fun x => x + 1) mulAddState 4).1
        (exp_ (fun x => x + 1) mulAddState 4).2).map (fun t => gradAt t.nodes 4) =
      some (dataAt mulAddState.nodes 4 + 1)) :=
  ⟨by decide, mulAddState_built.polyGraph.1.validRefs, mulAddState_built.polyGraph.1.acyclic,
    fun w _ => mulAddState_built.polyGraph.1.coherent w, rfl,
    exp_backward (fun x => x + 1) mulAddState 4 (by decide)
      mulAddState_built.polyGraph.1.validRefs mulAddState_built.polyGraph.1.acyclic
      (fun w _ => mulAddState_built.polyGraph.1.coherent w) rfl⟩

end ExponentialWitness

section Division
variable {α : Type} [Field α]

/-- The first division of a program is right: `(a / b) * b` holds the value
of `a` when the value of `b` is not 0. -/
theorem div_round_trip_first (a b : α) (la lb : String) (kRead : Int) (hb : b ≠ 0) :
    (divMulScene a b la lb kRead).2 = (0, 1, 3, 4) ∧
    dataAt (divMulScene a b la lb kRead).1.nodes 3 = a * b ^ (-1 : ℤ) ∧
    dataAt (divMulScene a b la lb kRead).1.nodes 4 = a := by
  refine ⟨rfl, ?_, ?_⟩ <;>
    simp [divMulScene, div, pow_, mul, mkValue, alloc, State.init, nodeAt, Value.mk4, dataAt]
  field_simp

/-- The first division of a program gives the numerator the right `grad`:
after `f = a / b` and `backward` on `f`, the `grad` of `a` is `1 / b`. -/
theorem div_grad_first (a b : α) (la lb : String) (kRead : Int) :
    (divScene a b la lb kRead).2 = (0, 1, 3) ∧
    (backward (divScene a b la lb kRead).1 3).map (fun s => gradAt s.nodes 0) =
      some (1 / b) := by
  have ho : topoOrder (divScene a b la lb kRead).1.nodes 3 = some [3, 2, 1, 0] := rfl
  refine ⟨rfl, ?_⟩
  rw [topoOrder_backward _ rfl ho]
  simp [divScene, div, pow_, mul, mkValue, alloc, State.init, replay, runRule, ruleAt, nodeAt,
    Value.mk4, setGrad, addGrad, dataAt, gradAt, labelAt, List.modify, List.modifyHead]

end Division

section DivisionDefects

/-- C11: with `a = 1`, `b = 2`, `c = 1`, `d = 4` (cells: `a` 0, `b` 1, `c` 2,
`d` 3, the static `pow` 4, `q1 = a / b` 5, `q2 = c / d` 6): `q2` holds `1/2`,
not `c * d^(-1) = 1/4`; its second operand is the cell of the static, built
by the first call, whose operand is `b`, not `d` (`kRead` is what the closure
of that cell will read as `k`; nothing here depends on it). -/
theorem div_reciprocal_is_shared (kRead : Int) :
    (divTwiceScene (1 : ℚ) 2 1 4 "a" "b" "c" "d" kRead).2 = (0, 1, 2, 3, 5, 6) ∧
    (divTwiceScene (1 : ℚ) 2 1 4 "a" "b" "c" "d" kRead).1.div_pow = some 4 ∧
    prevAt (divTwiceScene (1 : ℚ) 2 1 4 "a" "b" "c" "d" kRead).1.nodes 5 = [0, 4] ∧
    prevAt (divTwiceScene (1 : ℚ) 2 1 4 "a" "b" "c" "d" kRead).1.nodes 6 = [2, 4] ∧
    prevAt (divTwiceScene (1 : ℚ) 2 1 4 "a" "b" "c" "d" kRead).1.nodes 4 = [1] ∧
    ruleAt (divTwiceScene (1 : ℚ) 2 1 4 "a" "b" "c" "d" kRead).1.nodes 4 = Rule.pow 1 kRead 4 ∧
    dataAt (divTwiceScene (1 : ℚ) 2 1 4 "a" "b" "c" "d" kRead).1.nodes 6 = 1 / 2 ∧
    (1 : ℚ) * 4 ^ (-1 : ℤ) = 1 / 4 := by
  refine ⟨rfl, rfl, rfl, rfl, rfl, rfl, ?_, by norm_num⟩
  simp [divTwiceScene, div, pow_, mul, mkValue, alloc, State.init, nodeAt, Value.mk4, dataAt]

/-- C12: with `a = 1`, `b = 3` divided first and then `c = 6`, `d = 2` (cells:
`c` 2, `d` 3, `q2 = c / d` 6, `r = q2 * d` 7): `q2` holds `6 * 3^(-1) = 2`
and `r` holds `4`, not the value `6` of `c` (`kRead` is what the closure of
the static will read as `k`; nothing here depends on it). -/
theorem div_round_trip_after_division (kRead : Int) :
    (divRoundTripScene (1 : ℚ) 3 6 2 "a" "b" "c" "d" kRead).2 = (2, 3, 6, 7) ∧
    prevAt (divRoundTripScene (1 : ℚ) 3 6 2 "a" "b" "c" "d" kRead).1.nodes 7 = [6, 3] ∧
    dataAt (divRoundTripScene (1 : ℚ) 3 6 2 "a" "b" "c" "d" kRead).1.nodes 2 = 6 ∧
    dataAt (divRoundTripScene (1 : ℚ) 3 6 2 "a" "b" "c" "d" kRead).1.nodes 6 = 2 ∧
    dataAt (divRoundTripScene (1 : ℚ) 3 6 2 "a" "b" "c" "d" kRead).1.nodes 7 = 4 := by
  refine ⟨rfl, rfl, ?_, ?_, ?_⟩ <;>
    simp [divRoundTripScene, div, pow_, mul, mkValue, alloc, State.init, nodeAt, Value.mk4,
      dataAt] <;> norm_num

/-- C13: with `c = 1`, `d = 3` divided first and then the leaves `a = 1`,
`b = 2` (cells: `a` 2, `b` 3, `f = a / b` 6), all `grad`s 0: `backward` on
`f` leaves `1/3` in `a.grad`, not `1 / b.value = 1/2`, and `0` in
`b.grad` (`kRead` is what the closure of the static reads as `k`; it goes
into the `grad` of `d` only). -/
theorem div_grad_after_division (kRead : Int) :
    (divTwiceScene (1 : ℚ) 3 1 2 "c" "d" "a" "b" kRead).2 = (0, 1, 2, 3, 5, 6) ∧
    ZeroGrads (divTwiceScene (1 : ℚ) 3 1 2 "c" "d" "a" "b" kRead).1.nodes ∧
    dataAt (divTwiceScene (1 : ℚ) 3 1 2 "c" "d" "a" "b" kRead).1.nodes 3 = 2 ∧
    (backward (divTwiceScene (1 : ℚ) 3 1 2 "c" "d" "a" "b" kRead).1 6).map (fun s =>
      (gradAt s.nodes 2, gradAt s.nodes 3)) = some (1 / 3, 0) := by
  have ho : topoOrder (divTwiceScene (1 : ℚ) 3 1 2 "c" "d" "a" "b" kRead).1.nodes 6 =
      some [6, 4, 1, 2] := rfl
  refine ⟨rfl, ?_, rfl, ?_⟩
  · simp [ZeroGrads, divTwiceScene, div, pow_, mul, mkValue, alloc, State.init, Value.mk4]
  · rw [topoOrder_backward _ rfl ho]
    simp [divTwiceScene, div, pow_, mul, mkValue, alloc, State.init, replay, runRule, ruleAt,
      nodeAt, Value.mk4, setGrad, addGrad, dataAt, gradAt, labelAt, List.modify, List.modifyHead]

end DivisionDefects

section PrintDefect

/-- C17: the driver `main` calls `c.print()` with `c.grad = 0` (cells: `a` 0,
`b` 1, the static `neg_other` 2, `c` 3). `print` executes `this->grad = 1`
before it writes: it leaves `1` in `c.grad`, and the line of `c` shows
`grad=` followed by the text of `1`. -/
theorem print_seeds_root_grad (toStr : ℚ → String) :
    gradAt mainState.nodes 3 = 0 ∧
    topoOrder mainState.nodes 3 = some [3, 2, 0] ∧
    (print toStr mainState 3).map (fun r => (gradAt r.1.nodes 3, r.2)) =
      some (1, ["a+-b(data=" ++ toStr (-2) ++ ", grad=" ++ toStr 1 ++ ")",
        "-b(data=" ++ toStr (-4) ++ ", grad=" ++ toStr 0 ++ ")",
        "a(data=" ++ toStr 2 ++ ", grad=" ++ toStr 0 ++ ")"]) := by
  have ho : topoOrder mainState.nodes 3 = some [3, 2, 0] := by decide
  refine ⟨rfl, ho, ?_⟩
  simp only [print, printNodes, ho, Option.map_some']
  simp [mainState, subScene, sub, neg, add, mkValue, alloc, State.init, str, nodeAt, Value.mk4,
    setGrad, dataAt, gradAt, labelAt, List.modify, List.modifyHead]
  norm_num

end PrintDefect

section WellFormedness
variable {α : Type} [Field α]

theorem ruleAt_append_new (n : Nodes α) (v : Value α) :
    ruleAt (n ++ [v]) n.length = v._backward := by
  unfold ruleAt; rw [nodeAt_append_new]

theorem writesOperands_snoc {n : Nodes α} (hw : ∀ w, WritesOperands n w) (v : Value α)
    (ht : ∀ c ∈ v._backward.targets, c ∈ v._prev) : ∀ w, WritesOperands (n ++ [v]) w := by
  intro w c hc
  rcases Nat.lt_trichotomy w n.length with h | h | h
  · rw [ruleAt_append_left n _ h] at hc
    exact operand_snoc_left v (hw w c hc)
  · rw [h] at hc ⊢
    rw [ruleAt_append_new] at hc
    unfold Operand prevAt
    rw [nodeAt_append_new]
    exact ht c hc
  · rw [ruleAt_of_le _ (by simp; exact h)] at hc
    exact absurd hc (List.not_mem_nil _)

/-- A new object whose operands exist and whose closure writes them keeps a
state well formed. -/
theorem wellFormed_alloc {s : State α} (h : WellFormed s) (v : Value α)
    (hp : ∀ c ∈ v._prev, c < s.nodes.length)
    (ht : ∀ c ∈ v._backward.targets, c ∈ v._prev) : WellFormed (alloc s v).1 := by
  have hlen : (alloc s v).1.nodes.length = s.nodes.length + 1 := by simp [alloc]
  refine ⟨validRefs_snoc h.valid v hp, writesOperands_snoc h.writes v ht, ?_, ?_, ?_, ?_⟩ <;>
    intro p hpe <;> rw [hlen] <;> apply Nat.lt_succ_of_lt
  · exact h.add_int p hpe
  · exact h.mul_int p hpe
  · exact h.div_pow p hpe
  · exact h.sub_neg p hpe

theorem wellFormed_add {s : State α} (h : WellFormed s) {a b : Addr} (ha : a < s.nodes.length)
    (hb : b < s.nodes.length) : WellFormed (add s a b).1 := by
  apply wellFormed_alloc h
  · intro c hc
    simp only [Value.mk4, List.mem_cons, List.mem_singleton, List.not_mem_nil, or_false] at hc
    rcases hc with rfl | rfl <;> assumption
  · exact fun c hc => hc

theorem wellFormed_mul {s : State α} (h : WellFormed s) {a b : Addr} (ha : a < s.nodes.length)
    (hb : b < s.nodes.length) : WellFormed (mul s a b).1 := by
  apply wellFormed_alloc h
  · intro c hc
    simp only [Value.mk4, List.mem_cons, List.mem_singleton, List.not_mem_nil, or_false] at hc
    rcases hc with rfl | rfl <;> assumption
  · exact fun c hc => hc

theorem wellFormed_unary {s : State α} (h : WellFormed s) {a : Addr} (ha : a < s.nodes.length)
    (v : Value α) (hp : v._prev = [a]) (ht : v._backward.targets = [a]) :
    WellFormed (alloc s v).1 := by
  apply wellFormed_alloc h
  · intro c hc
    rw [hp, List.mem_singleton] at hc
    rw [hc]; exact ha
  · rw [hp, ht]; exact fun c hc => hc

theorem wellFormed_leaf {s : State α} (h : WellFormed s) (data : α) (label : String) :
    WellFormed (alloc s (Value.mk4 data label [] "_")).1 :=
  wellFormed_alloc h _ (fun _ hc => absurd hc (List.not_mem_nil _))
    (fun _ hc => absurd hc (List.not_mem_nil _))

theorem wellFormed_of_nodes_eq {s t : State α} (h : WellFormed s) (hn : t.nodes = s.nodes)
    (h1 : ∀ p, t.add_int_other = some p → p < s.nodes.length)
    (h2 : ∀ p, t.mul_int_other = some p → p < s.nodes.length)
    (h3 : ∀ p, t.div_pow = some p → p < s.nodes.length)
    (h4 : ∀ p, t.sub_neg_other = some p → p < s.nodes.length) : WellFormed t := by
  refine ⟨?_, ?_, ?_, ?_, ?_, ?_⟩
  · rw [hn]; exact h.valid
  · rw [hn]; exact h.writes
  all_goals rw [hn]; assumption

theorem wellFormed_of_sameShape {s t : State α} (h : WellFormed s)
    (hs : SameShape s.nodes t.nodes) (h1 : t.add_int_other = s.add_int_other)
    (h2 : t.mul_int_other = s.mul_int_other) (h3 : t.div_pow = s.div_pow)
    (h4 : t.sub_neg_other = s.sub_neg_other) : WellFormed t := by
  refine ⟨validRefs_congr hs h.valid, ?_, ?_, ?_, ?_, ?_⟩
  · intro v c hc
    rw [hs.ruleAt_eq] at hc
    exact (operand_congr hs).2 (h.writes v c hc)
  · rw [hs.length_eq, h1]; exact h.add_int
  · rw [hs.length_eq, h2]; exact h.mul_int
  · rw [hs.length_eq, h3]; exact h.div_pow
  · rw [hs.length_eq, h4]; exact h.sub_neg

theorem wellFormed_modify {s : State α} (h : WellFormed s) (f : Value α → Value α)
    (hf : ∀ v, (f v)._prev = v._prev ∧ (f v)._backward = v._backward) (p : Addr) :
    WellFormed { s with nodes := s.nodes.modify f p } := by
  have hprev : ∀ q, prevAt (s.nodes.modify f p) q = prevAt s.nodes q := by
    intro q
    unfold prevAt
    rw [nodeAt_modify]
    split
    · exact (hf _).1
    · rfl
  have hrule : ∀ q, ruleAt (s.nodes.modify f p) q = ruleAt s.nodes q := by
    intro q
    unfold ruleAt
    rw [nodeAt_modify]
    split
    · exact (hf _).2
    · rfl
  refine ⟨?_, ?_, ?_, ?_, ?_, ?_⟩
  · intro v c hc
    unfold Operand at hc
    rw [hprev] at hc
    simpa using h.valid v c hc
  · intro v c hc
    rw [hrule] at hc
    unfold Operand
    rw [hprev]
    exact h.writes v c hc
  · intro q hq; simpa using h.add_int q hq
  · intro q hq; simpa using h.mul_int q hq
  · intro q hq; simpa using h.div_pow q hq
  · intro q hq; simpa using h.sub_neg q hq

theorem wellFormed_init : WellFormed (State.init α) := by
  have hnil : ∀ v, prevAt ([] : Nodes α) v = [] := fun v => rfl
  refine ⟨?_, ?_, ?_, ?_, ?_, ?_⟩
  · intro v c hc
    unfold Operand at hc
    exact absurd hc (List.not_mem_nil _)
  · intro v c hc
    exact absurd hc (List.not_mem_nil _)
  all_goals
    intro p hp
    cases hp

theorem wellFormed_pow_ {s : State α} (h : WellFormed s) {a : Addr} (ha : a < s.nodes.length)
    (k kRead : Int) : WellFormed (pow_ s a k kRead).1 :=
  wellFormed_unary h ha _ rfl rfl

theorem wellFormed_neg {s : State α} (h : WellFormed s) (a : Addr) :
    WellFormed (neg s a).1 := by
  have h1 := wellFormed_modify h (fun v => { v with data := v.data * -1 })
    (fun _ => ⟨rfl, rfl⟩) a
  have h2 := wellFormed_modify h1 (fun v => { v with label := "-" ++ v.label })
    (fun _ => ⟨rfl, rfl⟩) a
  exact wellFormed_alloc h2 _ (fun c hc => h2.valid a c hc) (fun c hc => h2.writes a c hc)

theorem wellFormed_addInt {s : State α} (h : WellFormed s) {a : Addr}
    (ha : a < s.nodes.length) (k : Int) : WellFormed (addInt s a k).1 := by
  unfold addInt
  cases hs : s.add_int_other with
  | some other => exact wellFormed_add h ha (h.add_int other hs)
  | none =>
    have h1 := wellFormed_leaf h (k : α) ("const " ++ toString k)
    have hlen : (alloc s (Value.mk4 (k : α) ("const " ++ toString k) [] "_")).1.nodes.length =
        s.nodes.length + 1 := by simp [alloc]
    have h2 : WellFormed ({ (alloc s (Value.mk4 (k : α) ("const " ++ toString k) [] "_")).1 with
        add_int_other := some s.nodes.length } : State α) := by
      refine wellFormed_of_nodes_eq h1 rfl ?_ h1.mul_int h1.div_pow h1.sub_neg
      intro p hp
      cases hp
      rw [hlen]; exact Nat.lt_succ_self _
    refine wellFormed_add h2 ?_ ?_
    · show a < _
      rw [hlen]; exact Nat.lt_succ_of_lt ha
    · show s.nodes.length < _
      rw [hlen]; exact Nat.lt_succ_self _

theorem wellFormed_mulInt {s : State α} (h : WellFormed s) {a : Addr}
    (ha : a < s.nodes.length) (k : Int) : WellFormed (mulInt s a k).1 := by
  unfold mulInt
  cases hs : s.mul_int_other with
  | some other => exact wellFormed_mul h ha (h.mul_int other hs)
  | none =>
    have h1 := wellFormed_leaf h (k : α) ("const " ++ toString k)
    have hlen : (alloc s (Value.mk4 (k : α) ("const " ++ toString k) [] "_")).1.nodes.length =
        s.nodes.length + 1 := by simp [alloc]
    have h2 : WellFormed ({ (alloc s (Value.mk4 (k : α) ("const " ++ toString k) [] "_")).1 with
        mul_int_other := some s.nodes.length } : State α) := by
      refine wellFormed_of_nodes_eq h1 rfl h1.add_int ?_ h1.div_pow h1.sub_neg
      intro p hp
      cases hp
      rw [hlen]; exact Nat.lt_succ_self _
    refine wellFormed_mul h2 ?_ ?_
    · show a < _
      rw [hlen]; exact Nat.lt_succ_of_lt ha
    · show s.nodes.length < _
      rw [hlen]; exact Nat.lt_succ_self _

theorem wellFormed_sub {s : State α} (h : WellFormed s) {a : Addr} (ha : a < s.nodes.length)
    (b : Addr) : WellFormed (sub s a b).1 := by
  unfold sub
  cases hs : s.sub_neg_other with
  | some other => exact wellFormed_add h ha (h.sub_neg other hs)
  | none =>
    have h1 := wellFormed_neg h b
    have hlen : (neg s b).1.nodes.length = s.nodes.length + 1 := by simp [neg, alloc]
    have hres : (neg s b).2 = s.nodes.length := by simp [neg, alloc]
    have h2 : WellFormed ({ (neg s b).1 with sub_neg_other := some (neg s b).2 } : State α) := by
      refine wellFormed_of_nodes_eq h1 rfl h1.add_int h1.mul_int h1.div_pow ?_
      intro p hp
      cases hp
      rw [hlen, hres]; exact Nat.lt_succ_self _
    refine wellFormed_add h2 ?_ ?_
    · show a < _
      rw [hlen]; exact Nat.lt_succ_of_lt ha
    · show (neg s b).2 < _
      rw [hlen, hres]; exact Nat.lt_succ_self _

theorem wellFormed_div {s : State α} (h : WellFormed s) {a b : Addr}
    (ha : a < s.nodes.length) (hb : b < s.nodes.length) (kRead : Int) :
    WellFormed (div s a b kRead).1 := by
  unfold div
  cases hs : s.div_pow with
  | some other => exact wellFormed_mul h ha (h.div_pow other hs)
  | none =>
    have h1 := wellFormed_pow_ h hb (-1) kRead
    have hlen : (pow_ s b (-1) kRead).1.nodes.length = s.nodes.length + 1 := by
      simp [pow_, alloc]
    have h2 : WellFormed ({ (pow_ s b (-1) kRead).1 with div_pow := some s.nodes.length } :
        State α) := by
      refine wellFormed_of_nodes_eq h1 rfl h1.add_int h1.mul_int ?_ h1.sub_neg
      intro p hp
      cases hp
      rw [hlen]; exact Nat.lt_succ_self _
    refine wellFormed_mul h2 ?_ ?_
    · show a < _
      rw [hlen]; exact Nat.lt_succ_of_lt ha
    · show s.nodes.length < _
      rw [hlen]; exact Nat.lt_succ_self _

theorem wellFormed_backward {s s2 : State α} (h : WellFormed s) {root : Addr}
    (hb : backward s root = some s2) : WellFormed s2 := by
  unfold backward backwardNodes at hb
  cases ho : topoOrder s.nodes root with
  | none => rw [ho] at hb; cases hb
  | some order =>
    rw [ho] at hb
    cases hb
    exact wellFormed_of_sameShape h
      (sameShape_replay (sameShape_setGrad (sameShape_refl _) _ _) _) rfl rfl rfl rfl

/-- Every state that a program builds by declarations, operators on existing
objects and `backward` has valid operand pointers and closures that write
their own operands: the assumptions of the theorems on the traversal and on
the frame of `backward`. -/
theorem wellFormed_of_constructed {expf : α → α} {s : State α} (h : Constructed expf s) :
    WellFormed s := by
  induction h with
  | init => exact wellFormed_init
  | mkValue data label _ ih => exact wellFormed_leaf ih data label
  | add a b _ ha hb ih => exact wellFormed_add ih ha hb
  | mul a b _ ha hb ih => exact wellFormed_mul ih ha hb
  | addInt a k _ ha ih => exact wellFormed_addInt ih ha k
  | mulInt a k _ ha ih => exact wellFormed_mulInt ih ha k
  | pow_ a k kRead _ ha ih => exact wellFormed_pow_ ih ha k kRead
  | neg a _ _ ih => exact wellFormed_neg ih a
  | sub a b _ ha _ ih => exact wellFormed_sub ih ha b
  | div a b kRead _ ha hb ih => exact wellFormed_div ih ha hb kRead
  | tanh a tRead _ ha ih => exact wellFormed_unary ih ha _ rfl rfl
  | exp_ a _ ha ih => exact wellFormed_unary ih ha _ rfl rfl
  | backward root _ hb ih => exact wellFormed_backward ih hb

end WellFormedness

end Cgrad
